import Mathlib

/-!
# Bencode codec (`pkg/bencode.go`): a shallow embedding and its properties

The Go package exposes `Decode : string → (any, error)` and
`Encode : any → (string, error)`.  This development embeds both functions,
together with the private helpers `decodeInt`, `decodeList`, `decodeDict`,
`decodeItem` and `decodeString`, and states the properties of the codec
as theorems over the embedding.

Modelling conventions

* A Go `string` is a sequence of bytes: `Bytes := List UInt8`.
* A Go `any` is a `Value`: `int`, `string`, `[]any`, `map[string]any`, or a
  value of some other dynamic type (`other`, e.g. a channel or a float).
  A nil slice and a non-nil slice without elements are different values
  (`nilList` and `list []`), and so are a nil map and an empty map (`nilDict`
  and `dict []`): `reflect.DeepEqual`, the equality of the package's tests,
  tells them apart.
* A `map[string]any` is the list of its entries in the order in which a
  `range` loop visits them.  Go leaves that order unspecified, so a statement
  about a map holds for every order only when it is proved for every list
  with the same entries; `Value.Same` relates two presentations of one Go
  value.  Assigning to an existing key replaces its value (`mapAssign`).
* `int` is the 64-bit native integer; `strconv.Itoa` and `strconv.Atoi` are
  modelled from their documented behaviour.
* A Go call ends in a value, an ordinary `error`, or a run-time panic; the
  three are kept apart in `Res`.  Recursion is driven by a fuel counter that
  `Decode` initialises from the input length (`Res.outOfFuel` is shown to be
  unreachable).
-/

namespace Bencode

/-! ## Data model -/

/-- A Go string: a finite sequence of bytes. -/
abbrev Bytes := List UInt8

/-- The bytes of a string literal (every character used below is ASCII). -/
def bytes (s : String) : Bytes := s.toList.map (fun c => UInt8.ofNat c.toNat)

/-- Byte `i`. -/
abbrev c_i : UInt8 := 105
/-- Byte `l`. -/
abbrev c_l : UInt8 := 108
/-- Byte `d`. -/
abbrev c_d : UInt8 := 100
/-- Byte `e`. -/
abbrev c_e : UInt8 := 101
/-- Byte `:`. -/
abbrev c_colon : UInt8 := 58
/-- Byte `-`. -/
abbrev c_minus : UInt8 := 45
/-- Byte `+`. -/
abbrev c_plus : UInt8 := 43

/-- A dynamically typed Go value (`any`): the four bencode kinds and
everything else.  `list xs` is a non-nil `[]any` with the elements `xs` (also
none), `nilList` is `[]any(nil)`; `dict es` is a non-nil `map[string]any`,
`nilDict` is `map[string]any(nil)`. -/
inductive Value where
  | int (n : Int)
  | str (s : Bytes)
  | list (xs : List Value)
  | dict (es : List (Bytes × Value))
  | nilList
  | nilDict
  | other

/-- The package's sentinel errors, and `numError` for the `*strconv.NumError`
that `strconv.Atoi` returns (syntax or range). -/
inductive Err where
  | missingColonErr
  | invalidCharErr
  | strLenExceedsDataErr
  | invalidFormat
  | unsupportedType
  | numError
  deriving DecidableEq

/-- The two run-time panics the decoder can raise. -/
inductive Fault where
  | typeAssertion
  | sliceBounds
  deriving DecidableEq

/-- Outcome of a Go call: a value, a returned error, a panic, or (model only)
exhausted fuel. -/
inductive Res (α : Type) where
  | ok (a : α)
  | err (e : Err)
  | panicked (p : Fault)
  | outOfFuel

/-- Apply a function to the value of a successful outcome. -/
def Res.map {α β : Type} (f : α → β) : Res α → Res β
  | .ok a => .ok (f a)
  | .err e => .err e
  | .panicked p => .panicked p
  | .outOfFuel => .outOfFuel

/-- Largest native `int` (64-bit). -/
def maxInt : Int := 9223372036854775807

/-- Smallest native `int` (64-bit). -/
def minInt : Int := -9223372036854775808

mutual
/-- The value is built only from integers, strings, lists and string-keyed
dictionaries. -/
def Value.supported : Value → Bool
  | .int _ => true
  | .str _ => true
  | .list xs => supportedList xs
  | .dict es => supportedEntries es
  | .nilList => true
  | .nilDict => true
  | .other => false
/-- Every element of a list is supported. -/
def supportedList : List Value → Bool
  | [] => true
  | x :: xs => x.supported && supportedList xs
/-- Every value of a dictionary is supported. -/
def supportedEntries : List (Bytes × Value) → Bool
  | [] => true
  | (_, v) :: es => v.supported && supportedEntries es
end

/-- The keys of a list of entries. -/
def keysOf (es : List (Bytes × Value)) : List Bytes := es.map Prod.fst

mutual
/-- The value is one a Go program can hold: integers fit the native `int`,
string lengths fit the native `int`, and no map has a key twice. -/
def Value.representable : Value → Bool
  | .int n => decide (minInt ≤ n) && decide (n ≤ maxInt)
  | .str s => decide ((s.length : Int) ≤ maxInt)
  | .list xs => representableList xs
  | .dict es => decide (keysOf es).Nodup && representableEntries es
  | .nilList => true
  | .nilDict => true
  | .other => true
/-- Every element of a list is representable. -/
def representableList : List Value → Bool
  | [] => true
  | x :: xs => x.representable && representableList xs
/-- Every key and value of a dictionary is representable. -/
def representableEntries : List (Bytes × Value) → Bool
  | [] => true
  | (k, v) :: es =>
    decide ((k.length : Int) ≤ maxInt) && v.representable && representableEntries es
end

/-! ## `strconv` -/

/-- The ASCII digit for `d < 10`. -/
def digitByte (d : Nat) : UInt8 := UInt8.ofNat (48 + d)

/-- The byte is an ASCII decimal digit. -/
def isDigit (b : UInt8) : Bool := decide (48 ≤ b.toNat) && decide (b.toNat ≤ 57)

/-- Decimal digits of a natural number, most significant first. -/
def natDigits : Nat → Nat → Bytes
  | 0, _ => []
  | fuel + 1, n =>
    if n < 10 then [digitByte n] else natDigits fuel (n / 10) ++ [digitByte (n % 10)]

/-- Canonical decimal representation of a natural number. -/
def formatNat (n : Nat) : Bytes := natDigits (n + 1) n

/-- `strconv.Itoa`: canonical decimal representation, `-` for negatives. -/
def Itoa (n : Int) : Bytes :=
  if n < 0 then c_minus :: formatNat n.natAbs else formatNat n.natAbs

/-- Value of a string of decimal digits. -/
def parseNat (ds : Bytes) : Nat :=
  ds.foldl (fun acc b => acc * 10 + (b.toNat - 48)) 0

/-- `strconv.Atoi`: an optional sign, then one or more decimal digits, the
value within the native `int`; anything else is a `*NumError`. -/
def Atoi (s : Bytes) : Res Int :=
  match s with
  | [] => .err .numError
  | c :: rest =>
    let neg := decide (c = c_minus)
    let ds := if c = c_minus ∨ c = c_plus then rest else s
    if ds = [] ∨ ds.all isDigit = false then .err .numError
    else if neg then
      if -(parseNat ds : Int) < minInt then .err .numError else .ok (-(parseNat ds : Int))
    else
      if maxInt < (parseNat ds : Int) then .err .numError else .ok (parseNat ds : Int)

/-! ## `Encode` -/

/-- The `string` case of `Encode`: decimal length, colon, the bytes. -/
def encodeString (input : Bytes) : Bytes × Option Err :=
  (Itoa input.length ++ c_colon :: input, none)

mutual
/-- `Encode`: the bencoding of a value, as Go's pair `(string, error)`.  A nil
slice takes the `[]any` case and a nil map the `map[string]any` case; their
loops run zero times. -/
def Encode : Value → Bytes × Option Err
  | .int input =>
    if input = 0 then ([c_i, 48, c_e], none)
    else (c_i :: (Itoa input ++ [c_e]), none)
  | .str input => encodeString input
  | .list input =>
    match encodeItems input with
    | (result, none) => (c_l :: (result ++ [c_e]), none)
    | (_, some err) => ([], some err)
  | .dict input =>
    match encodeEntries input with
    | (result, none) => (c_d :: (result ++ [c_e]), none)
    | (_, some err) => ([], some err)
  | .nilList => ([c_l, c_e], none)
  | .nilDict => ([c_d, c_e], none)
  | .other => ([], some .unsupportedType)
/-- The loop of the `[]any` case: the concatenated encodings of the items, or
the first error. -/
def encodeItems : List Value → Bytes × Option Err
  | [] => ([], none)
  | item :: rest =>
    match Encode item with
    | (encoded, none) =>
      match encodeItems rest with
      | (result, none) => (encoded ++ result, none)
      | (_, some err) => ([], some err)
    | (_, some err) => ([], some err)
/-- The loop of the `map[string]any` case, visiting the entries in list
order: key encoding then value encoding for each entry, or the first error.
`Encode(key)` on a `string` key takes the `string` case. -/
def encodeEntries : List (Bytes × Value) → Bytes × Option Err
  | [] => ([], none)
  | (key, value) :: rest =>
    match encodeString key with
    | (encodedKey, none) =>
      match Encode value with
      | (encodedValue, none) =>
        match encodeEntries rest with
        | (result, none) => (encodedKey ++ encodedValue ++ result, none)
        | (_, some err) => ([], some err)
      | (_, some err) => ([], some err)
    | (_, some err) => ([], some err)
end

/-! ## `Decode` -/

/-- `strings.IndexByte`: position of the first occurrence (`none` for -1). -/
def indexByte : Bytes → UInt8 → Option Nat
  | [], _ => none
  | x :: xs, c => if x = c then some 0 else (indexByte xs c).map (· + 1)

/-- `strings.SplitN(benc, ":", 2)`: the parts before and after the first
colon, or `none` when the result has a single part. -/
def splitColon : Bytes → Option (Bytes × Bytes)
  | [] => none
  | x :: xs =>
    if x = c_colon then some ([], xs)
    else (splitColon xs).map (fun p => (x :: p.1, p.2))

/-- `decodeInt`: the text between the leading `i` and the first `e`. -/
def decodeInt (benc : Bytes) : Res Int :=
  match indexByte (benc.drop 1) c_e with
  | none => .panicked .sliceBounds
  | some idx => Atoi ((benc.drop 1).take idx)

/-- `decodeString`: `<length>:<content>`.  The `range` loop over the length
text visits runes; a rune is an ASCII digit exactly when it is a single byte
in `0`..`9`, so the loop rejects exactly the texts with a non-digit byte.
`content[:length]` with a negative `length` would be a slice-bounds panic. -/
def decodeString (benc : Bytes) : Res Bytes :=
  match splitColon benc with
  | none => .err .missingColonErr
  | some (lengthStr, content) =>
    if lengthStr.all isDigit = false then .err .invalidCharErr
    else
      match Atoi lengthStr with
      | .ok length =>
        if (content.length : Int) < length then .err .strLenExceedsDataErr
        else if length < 0 then .panicked .sliceBounds
        else .ok (content.take length.toNat)
      | .err e => .err e
      | .panicked p => .panicked p
      | .outOfFuel => .outOfFuel

/-- `decodeItem`, over the `Decode` it calls: decode one item, re-encode it,
and cut as many bytes as the encoding is long.  Only the length of the
encoding and its error are used, and neither depends on the order in which
`Encode` visits map entries (`encShape_same`). -/
def decodeItem (dec : Bytes → Res Value) (benc : Bytes) : Res (Value × Bytes) :=
  match dec benc with
  | .ok item =>
    match Encode item with
    | (encoded, none) =>
      if benc.length < encoded.length then .panicked .sliceBounds
      else .ok (item, benc.drop encoded.length)
    | (_, some err) => .err err
  | .err e => .err e
  | .panicked p => .panicked p
  | .outOfFuel => .outOfFuel

/-- The loop of `decodeList`. -/
def decodeListLoop (dec : Bytes → Res Value) : Nat → Bytes → List Value → Res (List Value)
  | 0, _, _ => .outOfFuel
  | fuel + 1, benc, result =>
    match benc with
    | [] => .ok result
    | c :: _ =>
      if c = c_e then .ok result
      else
        match decodeItem dec benc with
        | .ok (item, remaining) => decodeListLoop dec fuel remaining (result ++ [item])
        | .err e => .err e
        | .panicked p => .panicked p
        | .outOfFuel => .outOfFuel

/-- `decodeList`: drop the leading `l` (`benc[1:]`, a slice-bounds panic on
the empty string), then loop.  The result slice starts nil and is non-nil as
soon as an item is appended, so it is nil exactly when the returned list is
empty (`goSlice`). -/
def decodeList (dec : Bytes → Res Value) (benc : Bytes) : Res (List Value) :=
  match benc with
  | [] => .panicked .sliceBounds
  | _ :: _ => decodeListLoop dec (benc.length + 1) (benc.drop 1) []

/-- The `any` holding the slice `decodeList` returns: the nil slice when no
item was appended, else the non-nil slice of the items. -/
def goSlice : List Value → Value
  | [] => .nilList
  | x :: xs => .list (x :: xs)

/-- `result[key] = value` on a map: replace the value of an existing key, or
add the entry. -/
def mapAssign (key : Bytes) (value : Value) : List (Bytes × Value) → List (Bytes × Value)
  | [] => [(key, value)]
  | (k, v) :: es => if k = key then (k, value) :: es else (k, v) :: mapAssign key value es

/-- The loop of `decodeDict`. -/
def decodeDictLoop (dec : Bytes → Res Value) :
    Nat → Bytes → List (Bytes × Value) → Res (List (Bytes × Value))
  | 0, _, _ => .outOfFuel
  | fuel + 1, benc, result =>
    match benc with
    | [] => .ok result
    | c :: _ =>
      if c = c_e then .ok result
      else
        match decodeItem dec benc with
        | .ok (key, remaining) =>
          match decodeItem dec remaining with
          | .ok (value, remaining2) =>
            match key with
            | .str k => decodeDictLoop dec fuel remaining2 (mapAssign k value result)
            | _ => .panicked .typeAssertion
          | .err e => .err e
          | .panicked p => .panicked p
          | .outOfFuel => .outOfFuel
        | .err e => .err e
        | .panicked p => .panicked p
        | .outOfFuel => .outOfFuel

/-- `decodeDict`: drop the leading `d` (`benc[1:]`, a slice-bounds panic on
the empty string), then loop.  The result map is made with `make`, so it is
never nil. -/
def decodeDict (dec : Bytes → Res Value) (benc : Bytes) : Res (List (Bytes × Value)) :=
  match benc with
  | [] => .panicked .sliceBounds
  | _ :: _ => decodeDictLoop dec (benc.length + 1) (benc.drop 1) []

/-- `Decode` with a bound on the nesting of recursive calls. -/
def DecodeF : Nat → Bytes → Res Value
  | 0, _ => .outOfFuel
  | fuel + 1, benc =>
    match benc with
    | [] => .err .invalidFormat
    | c :: _ =>
      if c = c_i then
        if benc.length < 2 ∨ benc.getLast? ≠ some c_e then .err .invalidFormat
        else (decodeInt benc).map Value.int
      else if c = c_l then
        if benc.length < 2 ∨ benc.getLast? ≠ some c_e then .err .invalidFormat
        else (decodeList (DecodeF fuel) benc).map goSlice
      else if c = c_d then
        if benc.length < 2 ∨ benc.getLast? ≠ some c_e then .err .invalidFormat
        else (decodeDict (DecodeF fuel) benc).map Value.dict
      else (decodeString benc).map Value.str

/-- `Decode`: every recursive call is on a strictly shorter string, so the
input length bounds the nesting. -/
def Decode (benc : Bytes) : Res Value := DecodeF (benc.length + 1) benc

/-! ## Specification vocabulary -/

/-- What `Encode` returns on a value, by whether the value is supported. -/
def EncodeSpec (v : Value) : Prop :=
  (v.supported = true → (Encode v).2 = none) ∧
    (v.supported = false → Encode v = ([], some .unsupportedType))

mutual
/-- The value as `Decode` represents it: every list without elements is the
nil slice and every dictionary without entries is a non-nil map, at any
depth; nothing else changes. -/
def Value.decoded : Value → Value
  | .int n => .int n
  | .str s => .str s
  | .list xs => goSlice (decodedList xs)
  | .dict es => .dict (decodedEntries es)
  | .nilList => .nilList
  | .nilDict => .dict []
  | .other => .other
/-- Every element as `Decode` represents it. -/
def decodedList : List Value → List Value
  | [] => []
  | x :: xs => x.decoded :: decodedList xs
/-- Every entry with its value as `Decode` represents it. -/
def decodedEntries : List (Bytes × Value) → List (Bytes × Value)
  | [] => []
  | (k, v) :: es => (k, v.decoded) :: decodedEntries es
end

mutual
/-- The value holds, at any depth, no non-nil slice without elements and no
nil map: where it is empty it is empty the way `Decode` returns it. -/
def Value.plain : Value → Bool
  | .int _ => true
  | .str _ => true
  | .list xs => !xs.isEmpty && plainList xs
  | .dict es => plainEntries es
  | .nilList => true
  | .nilDict => false
  | .other => true
/-- Every element is plain. -/
def plainList : List Value → Bool
  | [] => true
  | x :: xs => x.plain && plainList xs
/-- Every value of a dictionary is plain. -/
def plainEntries : List (Bytes × Value) → Bool
  | [] => true
  | (_, v) :: es => v.plain && plainEntries es
end

/-- What decoding the encoding of `v`, followed by a trailer, returns. -/
def ItemSpec (v : Value) : Prop :=
  v.supported = true → v.representable = true →
    ∀ t : Bytes, (t = [] ∨ t.getLast? = some c_e) →
      ∀ fuel, ((Encode v).1 ++ t).length < fuel →
        DecodeF fuel ((Encode v).1 ++ t) = .ok v.decoded

mutual
/-- Two presentations of one Go value: equal up to the order in which the
entries of each map, at any depth, are listed. -/
inductive Value.Same : Value → Value → Prop
  | int (n : Int) : Value.Same (.int n) (.int n)
  | str (s : Bytes) : Value.Same (.str s) (.str s)
  | nilList : Value.Same .nilList .nilList
  | nilDict : Value.Same .nilDict .nilDict
  | other : Value.Same .other .other
  | list {xs ys : List Value} : SameList xs ys → Value.Same (.list xs) (.list ys)
  | dict {es fs : List (Bytes × Value)} : SameEntries es fs → Value.Same (.dict es) (.dict fs)
/-- Lists of the same length whose elements are pairwise the same value. -/
inductive SameList : List Value → List Value → Prop
  | nil : SameList [] []
  | cons {x y : Value} {xs ys : List Value} :
    Value.Same x y → SameList xs ys → SameList (x :: xs) (y :: ys)
/-- Entry lists of one map: a permutation, with the same value under each key. -/
inductive SameEntries : List (Bytes × Value) → List (Bytes × Value) → Prop
  | nil : SameEntries [] []
  | cons {k : Bytes} {v w : Value} {es fs : List (Bytes × Value)} :
    Value.Same v w → SameEntries es fs → SameEntries ((k, v) :: es) ((k, w) :: fs)
  | swap (a b : Bytes × Value) (es : List (Bytes × Value)) :
    SameEntries (a :: b :: es) (b :: a :: es)
  | trans {es fs gs : List (Bytes × Value)} :
    SameEntries es fs → SameEntries fs gs → SameEntries es gs
end

/-- The length and the error of an `Encode` result. -/
def encShape (p : Bytes × Option Err) : Nat × Option Err := (p.1.length, p.2)

/-- An `Encode` result is a string without error, or the unsupported-type failure. -/
def EncodeResult (p : Bytes × Option Err) : Prop :=
  p.2 = none ∨ p = ([], some .unsupportedType)

/-- The digits `ds` are the decimal representation of `m` without leading
zeros: one or more digits of value `m`, starting with `0` only when the text
is the single digit `0`. -/
def canonicalDigits (m : Nat) (ds : Bytes) : Prop :=
  ds ≠ [] ∧ ds.all isDigit = true ∧ parseNat ds = m ∧ (ds.head? = some 48 → ds = [48])

/-- The text `d` is the canonical decimal representation of `n`: a `-` exactly
when `n < 0`, then the digits of the absolute value without leading zeros. -/
def canonicalDecimal (n : Int) (d : Bytes) : Prop :=
  if n < 0 then ∃ ds, d = c_minus :: ds ∧ canonicalDigits n.natAbs ds
  else canonicalDigits n.natAbs d

/-! ## Decimal text -/

theorem digitByte_toNat {d : Nat} (h : d < 10) : (digitByte d).toNat = 48 + d := by
  interval_cases d <;> rfl

theorem isDigit_digitByte {d : Nat} (h : d < 10) : isDigit (digitByte d) = true := by
  interval_cases d <;> rfl

theorem isDigit_iff (b : UInt8) : isDigit b = true ↔ 48 ≤ b.toNat ∧ b.toNat ≤ 57 := by
  simp [isDigit]

theorem isDigit_ne {b c : UInt8} (hb : isDigit b = true) (hc : isDigit c = false) : b ≠ c := by
  intro h
  subst h
  rw [hb] at hc
  exact Bool.noConfusion hc

theorem parseNat_snoc (xs : Bytes) (b : UInt8) :
    parseNat (xs ++ [b]) = parseNat xs * 10 + (b.toNat - 48) := by
  simp [parseNat, List.foldl_append]

theorem natDigits_spec : ∀ (fuel n : Nat), n < fuel →
    parseNat (natDigits fuel n) = n ∧ (natDigits fuel n).all isDigit = true ∧
      natDigits fuel n ≠ [] := by
  intro fuel
  induction fuel with
  | zero => intro n h; omega
  | succ fuel ih =>
    intro n h
    unfold natDigits
    by_cases hn : n < 10
    · rw [if_pos hn]
      refine ⟨?_, ?_, by simp⟩
      · simp [parseNat, digitByte_toNat hn]
      · simp [isDigit_digitByte hn]
    · rw [if_neg hn]
      have hlt : n / 10 < fuel := by omega
      obtain ⟨h1, h2, _⟩ := ih (n / 10) hlt
      have hm : n % 10 < 10 := Nat.mod_lt _ (by decide)
      refine ⟨?_, ?_, by simp⟩
      · rw [parseNat_snoc, h1, digitByte_toNat hm]
        omega
      · rw [List.all_append, h2]
        simp [isDigit_digitByte hm]

theorem parseNat_formatNat (n : Nat) : parseNat (formatNat n) = n :=
  (natDigits_spec (n + 1) n (Nat.lt_succ_self n)).1

theorem formatNat_all_isDigit (n : Nat) : (formatNat n).all isDigit = true :=
  (natDigits_spec (n + 1) n (Nat.lt_succ_self n)).2.1

theorem formatNat_ne_nil (n : Nat) : formatNat n ≠ [] :=
  (natDigits_spec (n + 1) n (Nat.lt_succ_self n)).2.2

/-- The decimal text of a natural number starts with a digit. -/
theorem formatNat_head (n : Nat) : ∃ b rest, formatNat n = b :: rest ∧ isDigit b = true := by
  have h1 := formatNat_all_isDigit n
  have h2 := formatNat_ne_nil n
  cases h : formatNat n with
  | nil => exact absurd h h2
  | cons b rest =>
    rw [h] at h1
    simp only [List.all_cons, Bool.and_eq_true] at h1
    exact ⟨b, rest, rfl, h1.1⟩

theorem Atoi_digits {ds : Bytes} (hne : ds ≠ []) (hd : ds.all isDigit = true)
    (hr : (parseNat ds : Int) ≤ maxInt) : Atoi ds = .ok (parseNat ds : Int) := by
  cases ds with
  | nil => exact absurd rfl hne
  | cons c rest =>
    have hc : isDigit c = true := by
      simp only [List.all_cons, Bool.and_eq_true] at hd
      exact hd.1
    have h1 : c ≠ c_minus := isDigit_ne hc (by decide)
    have h2 : c ≠ c_plus := isDigit_ne hc (by decide)
    simp only [Atoi, h1, h2, or_self, if_false, decide_False, hd]
    simp [not_lt.mpr hr]

theorem Atoi_formatNat {n : Nat} (hr : (n : Int) ≤ maxInt) :
    Atoi (formatNat n) = .ok (n : Int) := by
  have h := Atoi_digits (formatNat_ne_nil n) (formatNat_all_isDigit n)
    (by rw [parseNat_formatNat]; exact hr)
  rw [parseNat_formatNat] at h
  exact h

theorem Atoi_Itoa {n : Int} (hlo : minInt ≤ n) (hhi : n ≤ maxInt) : Atoi (Itoa n) = .ok n := by
  unfold Itoa
  by_cases hn : n < 0
  · rw [if_pos hn]
    have hne := formatNat_ne_nil n.natAbs
    have hd := formatNat_all_isDigit n.natAbs
    have hp := parseNat_formatNat n.natAbs
    have habs : ((n.natAbs : Nat) : Int) = -n := by omega
    simp only [Atoi, true_or, if_true, decide_True, hd, hp, habs]
    simp only [hne, false_or, Bool.true_eq_false, if_false, neg_neg]
    have : ¬ (n < minInt) := not_lt.mpr hlo
    simp [this]
  · rw [if_neg hn]
    have habs : ((n.natAbs : Nat) : Int) = n := by omega
    have h := Atoi_formatNat (n := n.natAbs) (by rw [habs]; exact hhi)
    rw [habs] at h
    exact h

/-! ## Induction over values -/

mutual
theorem Value.induction_aux {P : Value → Prop} (hint : ∀ n, P (.int n))
    (hstr : ∀ s, P (.str s)) (hother : P .other)
    (hlist : ∀ xs, (∀ x ∈ xs, P x) → P (.list xs))
    (hdict : ∀ es : List (Bytes × Value), (∀ e ∈ es, P e.2) → P (.dict es))
    (hnl : P .nilList) (hnd : P .nilDict) : ∀ v, P v
  | .int n => hint n
  | .str s => hstr s
  | .other => hother
  | .nilList => hnl
  | .nilDict => hnd
  | .list xs => hlist xs (Value.induction_list hint hstr hother hlist hdict hnl hnd xs)
  | .dict es => hdict es (Value.induction_entries hint hstr hother hlist hdict hnl hnd es)
theorem Value.induction_list {P : Value → Prop} (hint : ∀ n, P (.int n))
    (hstr : ∀ s, P (.str s)) (hother : P .other)
    (hlist : ∀ xs, (∀ x ∈ xs, P x) → P (.list xs))
    (hdict : ∀ es : List (Bytes × Value), (∀ e ∈ es, P e.2) → P (.dict es))
    (hnl : P .nilList) (hnd : P .nilDict) :
    ∀ xs : List Value, ∀ x ∈ xs, P x
  | [] => fun _ h => absurd h (List.not_mem_nil _)
  | y :: ys => fun x h => by
    rcases List.mem_cons.mp h with h | h
    · rw [h]
      exact Value.induction_aux hint hstr hother hlist hdict hnl hnd y
    · exact Value.induction_list hint hstr hother hlist hdict hnl hnd ys x h
theorem Value.induction_entries {P : Value → Prop} (hint : ∀ n, P (.int n))
    (hstr : ∀ s, P (.str s)) (hother : P .other)
    (hlist : ∀ xs, (∀ x ∈ xs, P x) → P (.list xs))
    (hdict : ∀ es : List (Bytes × Value), (∀ e ∈ es, P e.2) → P (.dict es))
    (hnl : P .nilList) (hnd : P .nilDict) :
    ∀ es : List (Bytes × Value), ∀ e ∈ es, P e.2
  | [] => fun _ h => absurd h (List.not_mem_nil _)
  | (k, v) :: es => fun e h => by
    rcases List.mem_cons.mp h with h | h
    · rw [h]
      exact Value.induction_aux hint hstr hother hlist hdict hnl hnd v
    · exact Value.induction_entries hint hstr hother hlist hdict hnl hnd es e h
end

/-! ## Facts about `Encode` -/

theorem supportedList_iff (xs : List Value) :
    supportedList xs = true ↔ ∀ x ∈ xs, x.supported = true := by
  induction xs with
  | nil => simp [supportedList]
  | cons x xs ih => simp [supportedList, ih]

theorem supportedEntries_iff (es : List (Bytes × Value)) :
    supportedEntries es = true ↔ ∀ e ∈ es, e.2.supported = true := by
  induction es with
  | nil => simp [supportedEntries]
  | cons e es ih =>
    obtain ⟨k, v⟩ := e
    simp [supportedEntries, ih]

theorem representableList_iff (xs : List Value) :
    representableList xs = true ↔ ∀ x ∈ xs, x.representable = true := by
  induction xs with
  | nil => simp [representableList]
  | cons x xs ih => simp [representableList, ih]

theorem representableEntries_iff (es : List (Bytes × Value)) :
    representableEntries es = true ↔
      ∀ e ∈ es, (e.1.length : Int) ≤ maxInt ∧ e.2.representable = true := by
  induction es with
  | nil => simp [representableEntries]
  | cons e es ih =>
    obtain ⟨k, v⟩ := e
    simp [representableEntries, ih, and_assoc]

theorem Encode_list (xs : List Value) :
    Encode (.list xs) =
      match encodeItems xs with
      | (result, none) => (c_l :: (result ++ [c_e]), none)
      | (_, some err) => ([], some err) := by
  rw [Encode]

theorem Encode_dict (es : List (Bytes × Value)) :
    Encode (.dict es) =
      match encodeEntries es with
      | (result, none) => (c_d :: (result ++ [c_e]), none)
      | (_, some err) => ([], some err) := by
  rw [Encode]

theorem encodeItems_cons (x : Value) (xs : List Value) :
    encodeItems (x :: xs) =
      match Encode x with
      | (encoded, none) =>
        match encodeItems xs with
        | (result, none) => (encoded ++ result, none)
        | (_, some err) => ([], some err)
      | (_, some err) => ([], some err) := by
  rw [encodeItems]

theorem encodeEntries_cons (k : Bytes) (v : Value) (es : List (Bytes × Value)) :
    encodeEntries ((k, v) :: es) =
      match encodeString k with
      | (encodedKey, none) =>
        match Encode v with
        | (encodedValue, none) =>
          match encodeEntries es with
          | (result, none) => (encodedKey ++ encodedValue ++ result, none)
          | (_, some err) => ([], some err)
        | (_, some err) => ([], some err)
      | (_, some err) => ([], some err) := by
  rw [encodeEntries]

/-- A pair with no error is the pair of its first component and `none`. -/
theorem pair_of_snd_none {p : Bytes × Option Err} (h : p.2 = none) : p = (p.1, none) := by
  obtain ⟨a, b⟩ := p
  simp only at h
  rw [h]

theorem encodeItems_spec (xs : List Value) (h : ∀ x ∈ xs, EncodeSpec x) :
    (supportedList xs = true → (encodeItems xs).2 = none) ∧
      (supportedList xs = false → encodeItems xs = ([], some .unsupportedType)) := by
  induction xs with
  | nil => exact ⟨fun _ => rfl, fun h => by simp [supportedList] at h⟩
  | cons y ys ih =>
    have hy := h y (List.mem_cons_self _ _)
    have hys := ih (fun x hx => h x (List.mem_cons_of_mem _ hx))
    rw [encodeItems_cons]
    simp only [supportedList, Bool.and_eq_true, Bool.and_eq_false_iff]
    constructor
    · rintro ⟨h1, h2⟩
      rw [pair_of_snd_none (hy.1 h1), pair_of_snd_none (hys.1 h2)]
    · intro h12
      cases hs : y.supported with
      | false => rw [hy.2 hs]
      | true =>
        have h2 : supportedList ys = false := by
          rcases h12 with h1 | h2
          · rw [hs] at h1
            exact absurd h1 (by simp)
          · exact h2
        rw [pair_of_snd_none (hy.1 hs), hys.2 h2]

theorem encodeEntries_spec (es : List (Bytes × Value)) (h : ∀ e ∈ es, EncodeSpec e.2) :
    (supportedEntries es = true → (encodeEntries es).2 = none) ∧
      (supportedEntries es = false → encodeEntries es = ([], some .unsupportedType)) := by
  induction es with
  | nil => exact ⟨fun _ => rfl, fun h => by simp [supportedEntries] at h⟩
  | cons e es ih =>
    obtain ⟨k, v⟩ := e
    have hy := h (k, v) (List.mem_cons_self _ _)
    have hys := ih (fun x hx => h x (List.mem_cons_of_mem _ hx))
    rw [encodeEntries_cons]
    simp only [supportedEntries, Bool.and_eq_true, Bool.and_eq_false_iff, encodeString]
    constructor
    · rintro ⟨h1, h2⟩
      rw [pair_of_snd_none (hy.1 h1), pair_of_snd_none (hys.1 h2)]
    · intro h12
      cases hs : v.supported with
      | false => rw [hy.2 hs]
      | true =>
        have h2 : supportedEntries es = false := by
          rcases h12 with h1 | h2
          · rw [hs] at h1
            exact absurd h1 (by simp)
          · exact h2
        rw [pair_of_snd_none (hy.1 hs), hys.2 h2]

theorem Encode_spec : ∀ v : Value, EncodeSpec v := by
  apply Value.induction_aux
  · intro n
    refine ⟨fun _ => ?_, fun h => by simp [Value.supported] at h⟩
    unfold Encode
    split <;> rfl
  · intro s
    exact ⟨fun _ => rfl, fun h => by simp [Value.supported] at h⟩
  · exact ⟨fun h => by simp [Value.supported] at h, fun _ => rfl⟩
  · intro xs ih
    have h := encodeItems_spec xs ih
    unfold EncodeSpec
    rw [Encode_list]
    simp only [Value.supported]
    constructor
    · intro hs
      rw [pair_of_snd_none (h.1 hs)]
    · intro hs
      rw [h.2 hs]
  · intro es ih
    have h := encodeEntries_spec es ih
    unfold EncodeSpec
    rw [Encode_dict]
    simp only [Value.supported]
    constructor
    · intro hs
      rw [pair_of_snd_none (h.1 hs)]
    · intro hs
      rw [h.2 hs]
  · exact ⟨fun _ => rfl, fun h => by simp [Value.supported] at h⟩
  · exact ⟨fun _ => rfl, fun h => by simp [Value.supported] at h⟩

theorem Encode_ok {v : Value} (h : v.supported = true) : Encode v = ((Encode v).1, none) :=
  pair_of_snd_none ((Encode_spec v).1 h)

theorem encodeItems_ok {xs : List Value} (h : supportedList xs = true) :
    encodeItems xs = ((encodeItems xs).1, none) :=
  pair_of_snd_none ((encodeItems_spec xs (fun x _ => Encode_spec x)).1 h)

theorem encodeEntries_ok {es : List (Bytes × Value)} (h : supportedEntries es = true) :
    encodeEntries es = ((encodeEntries es).1, none) :=
  pair_of_snd_none ((encodeEntries_spec es (fun e _ => Encode_spec e.2)).1 h)

/-- The encoding of a supported list. -/
theorem Encode_list_ok {xs : List Value} (h : supportedList xs = true) :
    Encode (.list xs) = (c_l :: ((encodeItems xs).1 ++ [c_e]), none) := by
  rw [Encode_list, encodeItems_ok h]

/-- The encoding of a supported dictionary. -/
theorem Encode_dict_ok {es : List (Bytes × Value)} (h : supportedEntries es = true) :
    Encode (.dict es) = (c_d :: ((encodeEntries es).1 ++ [c_e]), none) := by
  rw [Encode_dict, encodeEntries_ok h]

theorem encodeItems_cons_ok {x : Value} {xs : List Value} (hx : x.supported = true)
    (h : supportedList xs = true) :
    encodeItems (x :: xs) = ((Encode x).1 ++ (encodeItems xs).1, none) := by
  rw [encodeItems_cons, Encode_ok hx, encodeItems_ok h]

theorem encodeEntries_cons_ok {k : Bytes} {v : Value} {es : List (Bytes × Value)}
    (hv : v.supported = true) (h : supportedEntries es = true) :
    encodeEntries ((k, v) :: es) =
      ((encodeString k).1 ++ (Encode v).1 ++ (encodeEntries es).1, none) := by
  rw [encodeEntries_cons, Encode_ok hv, encodeEntries_ok h]
  rfl

/-- The encoding of an integer is `i`, its decimal text, `e`. -/
theorem Encode_int (n : Int) : Encode (.int n) = (c_i :: (Itoa n ++ [c_e]), none) := by
  unfold Encode
  split
  · rename_i h
    rw [h]
    rfl
  · rfl

/-! ## Facts about the decoding helpers -/

theorem getLast?_append_e (a t : Bytes) (ht : t = [] ∨ t.getLast? = some c_e) :
    (a ++ c_e :: t).getLast? = some c_e := by
  rcases ht with ht | ht
  · subst ht
    simp
  · cases t with
    | nil => simp at ht
    | cons b t' =>
      rw [List.getLast?_append, List.getLast?_cons_cons, ht]
      rfl

theorem indexByte_append (a t : Bytes) (c : UInt8) (h : ∀ b ∈ a, b ≠ c) :
    indexByte (a ++ c :: t) c = some a.length := by
  induction a with
  | nil => simp [indexByte]
  | cons x xs ih =>
    have hx : x ≠ c := h x (List.mem_cons_self _ _)
    have := ih (fun b hb => h b (List.mem_cons_of_mem _ hb))
    simp [indexByte, hx, this]

theorem splitColon_append (a t : Bytes) (h : ∀ b ∈ a, b ≠ c_colon) :
    splitColon (a ++ c_colon :: t) = some (a, t) := by
  induction a with
  | nil => simp [splitColon]
  | cons x xs ih =>
    have hx : x ≠ c_colon := h x (List.mem_cons_self _ _)
    have := ih (fun b hb => h b (List.mem_cons_of_mem _ hb))
    simp [splitColon, hx, this]

theorem digits_ne {ds : Bytes} (hd : ds.all isDigit = true) {c : UInt8}
    (hc : isDigit c = false) : ∀ b ∈ ds, b ≠ c := by
  intro b hb
  rw [List.all_eq_true] at hd
  exact isDigit_ne (hd b hb) hc

/-- `decodeString` on a length text of digits within the native range. -/
theorem decodeString_digits {ds : Bytes} (hne : ds ≠ []) (hd : ds.all isDigit = true)
    (hr : (parseNat ds : Int) ≤ maxInt) (c : Bytes) :
    decodeString (ds ++ c_colon :: c) =
      if c.length < parseNat ds then .err .strLenExceedsDataErr
      else .ok (c.take (parseNat ds)) := by
  unfold decodeString
  rw [splitColon_append ds c (digits_ne hd (by decide))]
  have hnn : ¬ ((parseNat ds : Int) < 0) := by omega
  simp only [hd, Bool.true_eq_false, if_false, Atoi_digits hne hd hr, Nat.cast_lt,
    Int.toNat_ofNat, hnn]

/-- Dispatch of `Decode` on a first byte other than `i`, `l`, `d`. -/
theorem DecodeF_default (fuel : Nat) (b : UInt8) (r : Bytes) (hi : b ≠ c_i) (hl : b ≠ c_l)
    (hd : b ≠ c_d) : DecodeF (fuel + 1) (b :: r) = (decodeString (b :: r)).map Value.str := by
  simp [DecodeF, hi, hl, hd]

theorem DecodeF_digits {ds : Bytes} (hne : ds ≠ []) (hd : ds.all isDigit = true)
    (hr : (parseNat ds : Int) ≤ maxInt) (c : Bytes) (fuel : Nat) :
    DecodeF (fuel + 1) (ds ++ c_colon :: c) =
      if c.length < parseNat ds then .err .strLenExceedsDataErr
      else .ok (.str (c.take (parseNat ds))) := by
  cases ds with
  | nil => exact absurd rfl hne
  | cons b r =>
    have hb : isDigit b = true := by
      simp only [List.all_cons, Bool.and_eq_true] at hd
      exact hd.1
    rw [List.cons_append, DecodeF_default fuel b _ (isDigit_ne hb (by decide))
      (isDigit_ne hb (by decide)) (isDigit_ne hb (by decide)), ← List.cons_append,
      decodeString_digits hne hd hr]
    split <;> rfl

theorem Itoa_natCast (n : Nat) : Itoa (n : Int) = formatNat n := by
  unfold Itoa
  rw [if_neg (by omega)]
  rfl

/-- Decoding the encoding of a string followed by anything returns the string. -/
theorem DecodeF_encodeString (s t : Bytes) (hs : (s.length : Int) ≤ maxInt) (fuel : Nat) :
    DecodeF (fuel + 1) ((encodeString s).1 ++ t) = .ok (.str s) := by
  have h := DecodeF_digits (formatNat_ne_nil s.length) (formatNat_all_isDigit s.length)
    (by rw [parseNat_formatNat]; exact hs) (s ++ t) fuel
  rw [parseNat_formatNat] at h
  simp only [encodeString, Itoa_natCast, List.append_assoc, List.cons_append]
  rw [h, if_neg (by simp), List.take_left]

theorem Itoa_ne_e (n : Int) : ∀ b ∈ Itoa n, b ≠ c_e := by
  intro b hb
  unfold Itoa at hb
  have hd := digits_ne (formatNat_all_isDigit n.natAbs) (c := c_e) (by decide)
  split at hb
  · rcases List.mem_cons.mp hb with h | h
    · rw [h]
      decide
    · exact hd b h
  · exact hd b hb

/-- Decoding the encoding of an integer followed by a trailer that is empty
or ends in `e` returns the integer. -/
theorem DecodeF_encodeInt (n : Int) (t : Bytes) (hlo : minInt ≤ n) (hhi : n ≤ maxInt)
    (ht : t = [] ∨ t.getLast? = some c_e) (fuel : Nat) :
    DecodeF (fuel + 1) ((Encode (.int n)).1 ++ t) = .ok (.int n) := by
  rw [Encode_int]
  have hlast : (c_i :: (Itoa n ++ [c_e]) ++ t).getLast? = some c_e := by
    have := getLast?_append_e (c_i :: Itoa n) t ht
    simpa using this
  have hlen : ¬ (c_i :: (Itoa n ++ [c_e]) ++ t).length < 2 := by
    simp only [List.cons_append, List.length_cons, List.length_append, List.length_nil]
    omega
  have hidx : indexByte (Itoa n ++ c_e :: t) c_e = some (Itoa n).length :=
    indexByte_append _ _ _ (Itoa_ne_e n)
  simp only [DecodeF, List.cons_append, if_true]
  rw [if_neg]
  · simp only [decodeInt, List.drop_succ_cons, List.drop_zero, List.append_assoc,
      List.singleton_append, hidx, List.take_left, Atoi_Itoa hlo hhi, Res.map]
  · rw [not_or]
    refine ⟨by simpa using hlen, ?_⟩
    rw [not_not]
    simpa using hlast

/-! ## Decoding what `Encode` produced -/

/-- The encoding of a supported value is not empty and does not start with `e`. -/
theorem Encode_head {v : Value} (h : v.supported = true) :
    ∃ b r, (Encode v).1 = b :: r ∧ b ≠ c_e := by
  cases v with
  | int n =>
    rw [Encode_int]
    exact ⟨c_i, _, rfl, by decide⟩
  | str s =>
    obtain ⟨b, r, hb, hd⟩ := formatNat_head s.length
    refine ⟨b, r ++ c_colon :: s, ?_, isDigit_ne hd (by decide)⟩
    simp only [Encode, encodeString, Itoa_natCast, hb, List.cons_append]
  | list xs =>
    rw [Encode_list_ok (by simpa [Value.supported] using h)]
    exact ⟨c_l, _, rfl, by decide⟩
  | dict es =>
    rw [Encode_dict_ok (by simpa [Value.supported] using h)]
    exact ⟨c_d, _, rfl, by decide⟩
  | nilList => exact ⟨c_l, _, rfl, by decide⟩
  | nilDict => exact ⟨c_d, _, rfl, by decide⟩
  | other => simp [Value.supported] at h

/-! ### The representation `Decode` returns -/

theorem Encode_goSlice (ys : List Value) : Encode (goSlice ys) = Encode (.list ys) := by
  cases ys with
  | nil => rfl
  | cons y ys => rfl

theorem decodedList_eq_map (xs : List Value) : decodedList xs = xs.map Value.decoded := by
  induction xs with
  | nil => rfl
  | cons x xs ih => simp [decodedList, ih]

theorem keysOf_decodedEntries (es : List (Bytes × Value)) :
    keysOf (decodedEntries es) = keysOf es := by
  induction es with
  | nil => rfl
  | cons e es ih =>
    obtain ⟨k, v⟩ := e
    simp only [keysOf, List.map_cons, decodedEntries] at ih ⊢
    rw [ih]

theorem encodeItems_decodedList (xs : List Value)
    (h : ∀ x ∈ xs, Encode x.decoded = Encode x) :
    encodeItems (decodedList xs) = encodeItems xs := by
  induction xs with
  | nil => rfl
  | cons x xs ih =>
    rw [decodedList, encodeItems_cons, encodeItems_cons, h x (List.mem_cons_self _ _),
      ih (fun y hy => h y (List.mem_cons_of_mem _ hy))]

theorem encodeEntries_decodedEntries (es : List (Bytes × Value))
    (h : ∀ e ∈ es, Encode e.2.decoded = Encode e.2) :
    encodeEntries (decodedEntries es) = encodeEntries es := by
  induction es with
  | nil => rfl
  | cons e es ih =>
    obtain ⟨k, v⟩ := e
    rw [decodedEntries, encodeEntries_cons, encodeEntries_cons,
      h (k, v) (List.mem_cons_self _ _), ih (fun y hy => h y (List.mem_cons_of_mem _ hy))]

/-- A value and its representation by `Decode` have the same encoding. -/
theorem Encode_decoded : ∀ v : Value, Encode v.decoded = Encode v := by
  apply Value.induction_aux
  · intro n; rfl
  · intro s; rfl
  · rfl
  · intro xs ih
    rw [Value.decoded, Encode_goSlice, Encode_list, Encode_list, encodeItems_decodedList xs ih]
  · intro es ih
    rw [Value.decoded, Encode_dict, Encode_dict, encodeEntries_decodedEntries es ih]
  · rfl
  · rfl

theorem plainList_iff (xs : List Value) :
    plainList xs = true ↔ ∀ x ∈ xs, x.plain = true := by
  induction xs with
  | nil => simp [plainList]
  | cons x xs ih => simp [plainList, ih]

theorem plainEntries_iff (es : List (Bytes × Value)) :
    plainEntries es = true ↔ ∀ e ∈ es, e.2.plain = true := by
  induction es with
  | nil => simp [plainEntries]
  | cons e es ih =>
    obtain ⟨k, v⟩ := e
    simp [plainEntries, ih]

theorem decodedList_fixed (xs : List Value) :
    decodedList xs = xs ↔ ∀ x ∈ xs, x.decoded = x := by
  induction xs with
  | nil => simp [decodedList]
  | cons x xs ih => simp [decodedList, ih]

theorem decodedEntries_fixed (es : List (Bytes × Value)) :
    decodedEntries es = es ↔ ∀ e ∈ es, e.2.decoded = e.2 := by
  induction es with
  | nil => simp [decodedEntries]
  | cons e es ih =>
    obtain ⟨k, v⟩ := e
    simp [decodedEntries, ih]

theorem goSlice_eq_list (ys xs : List Value) : goSlice ys = .list xs ↔ ys = xs ∧ xs ≠ [] := by
  cases ys with
  | nil =>
    simp only [goSlice]
    constructor
    · intro h
      exact Value.noConfusion h
    · rintro ⟨h1, h2⟩
      exact absurd h1.symm h2
  | cons y ys =>
    simp only [goSlice, Value.list.injEq]
    constructor
    · intro h
      exact ⟨h, by rw [← h]; simp⟩
    · intro h
      exact h.1

/-- `Decode` returns a value unchanged exactly when the value is plain. -/
theorem decoded_eq_self_iff : ∀ v : Value, v.decoded = v ↔ v.plain = true := by
  apply Value.induction_aux
  · intro n; simp [Value.decoded, Value.plain]
  · intro s; simp [Value.decoded, Value.plain]
  · simp [Value.decoded, Value.plain]
  · intro xs ih
    rw [Value.decoded, Value.plain, goSlice_eq_list, decodedList_fixed, Bool.and_eq_true,
      plainList_iff]
    constructor
    · rintro ⟨h1, h2⟩
      refine ⟨?_, fun x hx => (ih x hx).mp (h1 x hx)⟩
      cases xs with
      | nil => exact absurd rfl h2
      | cons x xs => rfl
    · rintro ⟨h1, h2⟩
      refine ⟨fun x hx => (ih x hx).mpr (h2 x hx), ?_⟩
      intro hnil
      rw [hnil] at h1
      exact absurd h1 (by decide)
  · intro es ih
    rw [Value.decoded, Value.plain, Value.dict.injEq, decodedEntries_fixed, plainEntries_iff]
    constructor
    · intro h e he
      exact (ih e he).mp (h e he)
    · intro h e he
      exact (ih e he).mpr (h e he)
  · simp [Value.decoded, Value.plain]
  · simp [Value.decoded, Value.plain]

/-- Only a string is represented as a string. -/
theorem decoded_eq_str {k : Value} {s : Bytes} (h : k.decoded = .str s) : k = .str s := by
  cases k with
  | int n => exact Value.noConfusion h
  | str s' => exact h
  | list xs =>
    rw [Value.decoded] at h
    cases hx : decodedList xs with
    | nil => rw [hx] at h; exact Value.noConfusion h
    | cons y ys => rw [hx] at h; exact Value.noConfusion h
  | dict es => exact Value.noConfusion h
  | nilList => exact Value.noConfusion h
  | nilDict => exact Value.noConfusion h
  | other => exact Value.noConfusion h

theorem encodeString_head (s : Bytes) : ∃ b r, (encodeString s).1 = b :: r ∧ b ≠ c_e :=
  Encode_head (v := .str s) rfl

/-- `decodeItem` cuts exactly the encoding when the inner `Decode` returns the
value that was encoded, in its own representation. -/
theorem decodeItem_of_decode {dec : Bytes → Res Value} {v : Value} {t : Bytes}
    (hv : v.supported = true) (hdec : dec ((Encode v).1 ++ t) = .ok v.decoded) :
    decodeItem dec ((Encode v).1 ++ t) = .ok (v.decoded, t) := by
  unfold decodeItem
  rw [hdec]
  simp only
  rw [Encode_decoded, Encode_ok hv]
  simp only [List.length_append]
  rw [if_neg (by omega)]
  simp

theorem decodeListLoop_succ {dec : Bytes → Res Value} {benc remaining : Bytes} {item : Value}
    (lf : Nat) (acc : List Value) (hhead : ∃ b r, benc = b :: r ∧ b ≠ c_e)
    (hitem : decodeItem dec benc = .ok (item, remaining)) :
    decodeListLoop dec (lf + 1) benc acc = decodeListLoop dec lf remaining (acc ++ [item]) := by
  obtain ⟨b, r, hb, hne⟩ := hhead
  subst hb
  simp only [decodeListLoop, hne, if_false, hitem]

theorem decodeDictLoop_succ {dec : Bytes → Res Value} {benc rem1 rem2 : Bytes} {k : Bytes}
    {v : Value} (lf : Nat) (acc : List (Bytes × Value))
    (hhead : ∃ b r, benc = b :: r ∧ b ≠ c_e)
    (hkey : decodeItem dec benc = .ok (.str k, rem1))
    (hval : decodeItem dec rem1 = .ok (v, rem2)) :
    decodeDictLoop dec (lf + 1) benc acc = decodeDictLoop dec lf rem2 (mapAssign k v acc) := by
  obtain ⟨b, r, hb, hne⟩ := hhead
  subst hb
  simp only [decodeDictLoop, hne, if_false, hkey, hval]

theorem mapAssign_fresh (k : Bytes) (v : Value) (acc : List (Bytes × Value))
    (h : k ∉ keysOf acc) : mapAssign k v acc = acc ++ [(k, v)] := by
  induction acc with
  | nil => rfl
  | cons e es ih =>
    obtain ⟨k', v'⟩ := e
    simp only [keysOf, List.map_cons, List.mem_cons, not_or] at h
    have hne : k' ≠ k := fun h' => h.1 h'.symm
    simp only [mapAssign, hne, if_false, List.cons_append]
    rw [ih h.2]

theorem decodeListLoop_items (fuel : Nat) (t : Bytes) (ht : t = [] ∨ t.getLast? = some c_e) :
    ∀ xs : List Value, (∀ x ∈ xs, ItemSpec x) → supportedList xs = true →
      representableList xs = true → ∀ (lf : Nat) (acc : List Value),
      ((encodeItems xs).1 ++ c_e :: t).length < lf →
      ((encodeItems xs).1 ++ c_e :: t).length < fuel →
      decodeListLoop (DecodeF fuel) lf ((encodeItems xs).1 ++ c_e :: t) acc =
        .ok (acc ++ decodedList xs) := by
  intro xs
  induction xs with
  | nil =>
    intro _ _ _ lf acc hlf _
    cases lf with
    | zero => omega
    | succ lf => simp [encodeItems, decodeListLoop, decodedList]
  | cons x xs ih =>
    intro hP hs hr lf acc hlf hfuel
    simp only [supportedList, Bool.and_eq_true] at hs
    simp only [representableList, Bool.and_eq_true] at hr
    rw [encodeItems_cons_ok hs.1 hs.2] at hlf hfuel ⊢
    simp only [List.append_assoc] at hlf hfuel ⊢
    have ht' : (encodeItems xs).1 ++ c_e :: t = [] ∨
        ((encodeItems xs).1 ++ c_e :: t).getLast? = some c_e :=
      Or.inr (getLast?_append_e _ _ ht)
    have hdec := hP x (List.mem_cons_self _ _) hs.1 hr.1 _ ht' fuel hfuel
    have hitem := decodeItem_of_decode hs.1 hdec
    obtain ⟨b, r, hb, hne⟩ := Encode_head hs.1
    have hlen : 1 ≤ (Encode x).1.length := by rw [hb]; simp
    rw [List.length_append] at hlf hfuel
    cases lf with
    | zero => omega
    | succ lf =>
      rw [decodeListLoop_succ lf acc ⟨b, r ++ ((encodeItems xs).1 ++ c_e :: t), by rw [hb]; rfl, hne⟩
        hitem]
      rw [ih (fun y hy => hP y (List.mem_cons_of_mem _ hy)) hs.2 hr.2 lf (acc ++ [x.decoded])
        (by omega) (by omega)]
      simp [decodedList]

theorem decodeDictLoop_entries (fuel : Nat) (t : Bytes) (ht : t = [] ∨ t.getLast? = some c_e) :
    ∀ es : List (Bytes × Value), (∀ e ∈ es, ItemSpec e.2) → supportedEntries es = true →
      representableEntries es = true → ∀ (lf : Nat) (acc : List (Bytes × Value)),
      (keysOf acc ++ keysOf es).Nodup →
      ((encodeEntries es).1 ++ c_e :: t).length < lf →
      ((encodeEntries es).1 ++ c_e :: t).length < fuel →
      decodeDictLoop (DecodeF fuel) lf ((encodeEntries es).1 ++ c_e :: t) acc =
        .ok (acc ++ decodedEntries es) := by
  intro es
  induction es with
  | nil =>
    intro _ _ _ lf acc _ hlf _
    cases lf with
    | zero => omega
    | succ lf => simp [encodeEntries, decodeDictLoop, decodedEntries]
  | cons e es ih =>
    obtain ⟨k, v⟩ := e
    intro hP hs hr lf acc hnd hlf hfuel
    simp only [supportedEntries, Bool.and_eq_true] at hs
    simp only [representableEntries, Bool.and_eq_true, decide_eq_true_eq] at hr
    rw [encodeEntries_cons_ok hs.1 hs.2] at hlf hfuel ⊢
    simp only [List.append_assoc] at hlf hfuel ⊢
    have ht2 : (encodeEntries es).1 ++ c_e :: t = [] ∨
        ((encodeEntries es).1 ++ c_e :: t).getLast? = some c_e :=
      Or.inr (getLast?_append_e _ _ ht)
    obtain ⟨b, r, hb, hne⟩ := encodeString_head k
    obtain ⟨b', r', hb', _⟩ := Encode_head hs.1
    have hlen : 1 ≤ (encodeString k).1.length := by rw [hb]; simp
    have hlen' : 1 ≤ (Encode v).1.length := by rw [hb']; simp
    simp only [List.length_append] at hlf hfuel
    cases fuel with
    | zero => omega
    | succ fuel =>
      have hkdec : DecodeF (fuel + 1) ((Encode (.str k)).1 ++
          ((Encode v).1 ++ ((encodeEntries es).1 ++ c_e :: t))) = .ok (.str k) :=
        DecodeF_encodeString k _ hr.1.1 fuel
      have hkey := decodeItem_of_decode (v := .str k) rfl hkdec
      have hvdec := hP (k, v) (List.mem_cons_self _ _) hs.1 hr.1.2 _ ht2 (fuel + 1)
        (by simp only [List.length_append] at hlf hfuel ⊢; omega)
      have hval := decodeItem_of_decode hs.1 hvdec
      have hfresh : k ∉ keysOf acc := by
        intro hk
        rw [List.nodup_append] at hnd
        exact hnd.2.2 hk (by simp [keysOf])
      cases lf with
      | zero => omega
      | succ lf =>
        have hhead : ∃ b0 r0, (encodeString k).1 ++
            ((Encode v).1 ++ ((encodeEntries es).1 ++ c_e :: t)) = b0 :: r0 ∧ b0 ≠ c_e :=
          ⟨b, r ++ ((Encode v).1 ++ ((encodeEntries es).1 ++ c_e :: t)), by rw [hb]; rfl, hne⟩
        rw [decodeDictLoop_succ lf acc hhead hkey hval,
          mapAssign_fresh k v.decoded acc hfresh]
        rw [ih (fun y hy => hP y (List.mem_cons_of_mem _ hy)) hs.2 hr.2 lf
          (acc ++ [(k, v.decoded)])
          (by
            simp only [keysOf, List.map_append, List.map_cons, List.map_nil,
              List.append_assoc, List.singleton_append] at hnd ⊢
            exact hnd)
          (by simp only [List.length_append] at hlf hfuel ⊢; omega)
          (by simp only [List.length_append] at hlf hfuel ⊢; omega)]
        simp [decodedEntries]

/-- Dispatch of `Decode` on a list whose last byte is `e`. -/
theorem DecodeF_list (fuel : Nat) (body t : Bytes) (ht : t = [] ∨ t.getLast? = some c_e) :
    DecodeF (fuel + 1) (c_l :: (body ++ c_e :: t)) =
      (decodeListLoop (DecodeF fuel) ((body ++ c_e :: t).length + 2) (body ++ c_e :: t) []).map
        goSlice := by
  have hlast : (c_l :: (body ++ c_e :: t)).getLast? = some c_e := by
    have := getLast?_append_e (c_l :: body) t ht
    simpa using this
  have hlen : ¬ (c_l :: (body ++ c_e :: t)).length < 2 := by
    simp only [List.length_cons, List.length_append]
    omega
  have hg : ¬ ((c_l :: (body ++ c_e :: t)).length < 2 ∨
      (c_l :: (body ++ c_e :: t)).getLast? ≠ some c_e) := by
    rw [not_or, not_not]
    exact ⟨hlen, hlast⟩
  have hne : c_l ≠ c_i := by decide
  simp only [DecodeF, hne, if_false, if_true]
  rw [if_neg hg]
  simp only [decodeList, List.drop_succ_cons, List.drop_zero, List.length_cons]

/-- Dispatch of `Decode` on a dictionary whose last byte is `e`. -/
theorem DecodeF_dict (fuel : Nat) (body t : Bytes) (ht : t = [] ∨ t.getLast? = some c_e) :
    DecodeF (fuel + 1) (c_d :: (body ++ c_e :: t)) =
      (decodeDictLoop (DecodeF fuel) ((body ++ c_e :: t).length + 2) (body ++ c_e :: t) []).map
        Value.dict := by
  have hlast : (c_d :: (body ++ c_e :: t)).getLast? = some c_e := by
    have := getLast?_append_e (c_d :: body) t ht
    simpa using this
  have hlen : ¬ (c_d :: (body ++ c_e :: t)).length < 2 := by
    simp only [List.length_cons, List.length_append]
    omega
  have hg : ¬ ((c_d :: (body ++ c_e :: t)).length < 2 ∨
      (c_d :: (body ++ c_e :: t)).getLast? ≠ some c_e) := by
    rw [not_or, not_not]
    exact ⟨hlen, hlast⟩
  have hne : c_d ≠ c_i := by decide
  have hne' : c_d ≠ c_l := by decide
  simp only [DecodeF, hne, hne', if_false, if_true]
  rw [if_neg hg]
  simp only [decodeDict, List.drop_succ_cons, List.drop_zero, List.length_cons]

/-- Decoding the encoding of a supported, representable value, followed by a
trailer that is empty or ends in `e`, returns the value as `Decode`
represents it. -/
theorem DecodeF_Encode : ∀ v : Value, ItemSpec v := by
  apply Value.induction_aux
  · intro n _ hr t ht fuel hfuel
    simp only [Value.representable, Bool.and_eq_true, decide_eq_true_eq] at hr
    cases fuel with
    | zero => omega
    | succ fuel => exact DecodeF_encodeInt n t hr.1 hr.2 ht fuel
  · intro s _ hr t _ fuel hfuel
    simp only [Value.representable, decide_eq_true_eq] at hr
    cases fuel with
    | zero => omega
    | succ fuel => exact DecodeF_encodeString s t hr fuel
  · intro hs
    simp [Value.supported] at hs
  · intro xs ih hs hr t ht fuel hfuel
    simp only [Value.supported] at hs
    simp only [Value.representable] at hr
    rw [Encode_list_ok hs] at hfuel ⊢
    simp only [List.cons_append, List.append_assoc, List.singleton_append,
      List.length_cons, List.nil_append] at hfuel ⊢
    cases fuel with
    | zero => omega
    | succ fuel =>
      rw [DecodeF_list fuel _ t ht,
        decodeListLoop_items fuel t ht xs ih hs hr _ [] (by omega) (by omega)]
      rfl
  · intro es ih hs hr t ht fuel hfuel
    simp only [Value.supported] at hs
    simp only [Value.representable, Bool.and_eq_true, decide_eq_true_eq] at hr
    rw [Encode_dict_ok hs] at hfuel ⊢
    simp only [List.cons_append, List.append_assoc, List.singleton_append,
      List.length_cons, List.nil_append] at hfuel ⊢
    cases fuel with
    | zero => omega
    | succ fuel =>
      rw [DecodeF_dict fuel _ t ht,
        decodeDictLoop_entries fuel t ht es ih hs hr.2 _ [] (by simpa [keysOf] using hr.1)
          (by omega) (by omega)]
      rfl
  · intro _ _ t ht fuel hfuel
    cases fuel with
    | zero => omega
    | succ fuel =>
      have h := DecodeF_list fuel [] t ht
      simp only [List.nil_append] at h
      have hl : decodeListLoop (DecodeF fuel) ((c_e :: t).length + 2) (c_e :: t) [] = .ok [] := by
        simp [decodeListLoop]
      rw [hl] at h
      exact h
  · intro _ _ t ht fuel hfuel
    cases fuel with
    | zero => omega
    | succ fuel =>
      have h := DecodeF_dict fuel [] t ht
      simp only [List.nil_append] at h
      have hl : decodeDictLoop (DecodeF fuel) ((c_e :: t).length + 2) (c_e :: t) [] = .ok [] := by
        simp [decodeDictLoop]
      rw [hl] at h
      exact h

/-! ## The order of map entries -/

theorem Encode_result (v : Value) : EncodeResult (Encode v) := by
  cases h : v.supported with
  | true => exact Or.inl ((Encode_spec v).1 h)
  | false => exact Or.inr ((Encode_spec v).2 h)

theorem encodeItems_result (xs : List Value) : EncodeResult (encodeItems xs) := by
  cases h : supportedList xs with
  | true => exact Or.inl ((encodeItems_spec xs (fun x _ => Encode_spec x)).1 h)
  | false => exact Or.inr ((encodeItems_spec xs (fun x _ => Encode_spec x)).2 h)

theorem encodeEntries_result (es : List (Bytes × Value)) : EncodeResult (encodeEntries es) := by
  cases h : supportedEntries es with
  | true => exact Or.inl ((encodeEntries_spec es (fun e _ => Encode_spec e.2)).1 h)
  | false => exact Or.inr ((encodeEntries_spec es (fun e _ => Encode_spec e.2)).2 h)

/-- Two results of the same shape are of the same kind and length. -/
theorem encShape_cases {p q : Bytes × Option Err} (hp : EncodeResult p) (hq : EncodeResult q)
    (h : encShape p = encShape q) :
    (p.2 = none ∧ q.2 = none ∧ p.1.length = q.1.length) ∨
      (p = ([], some .unsupportedType) ∧ q = ([], some .unsupportedType)) := by
  obtain ⟨a, oa⟩ := p
  obtain ⟨b, ob⟩ := q
  simp only [encShape, Prod.mk.injEq] at h
  rcases hp with hp | hp
  · simp only at hp
    subst hp
    left
    exact ⟨rfl, h.2.symm, h.1⟩
  · rcases hq with hq | hq
    · simp only at hq
      subst hq
      simp only [Prod.mk.injEq] at hp
      rw [hp.2] at h
      exact absurd h.2 (by simp)
    · right
      exact ⟨hp, hq⟩

theorem encShape_list {xs ys : List Value}
    (h : encShape (encodeItems xs) = encShape (encodeItems ys)) :
    encShape (Encode (.list xs)) = encShape (Encode (.list ys)) := by
  rw [Encode_list, Encode_list]
  rcases encShape_cases (encodeItems_result xs) (encodeItems_result ys) h with
    ⟨h1, h2, h3⟩ | ⟨h1, h2⟩
  · rw [pair_of_snd_none h1, pair_of_snd_none h2]
    simp [encShape, h3]
  · rw [h1, h2]

theorem encShape_dict {es fs : List (Bytes × Value)}
    (h : encShape (encodeEntries es) = encShape (encodeEntries fs)) :
    encShape (Encode (.dict es)) = encShape (Encode (.dict fs)) := by
  rw [Encode_dict, Encode_dict]
  rcases encShape_cases (encodeEntries_result es) (encodeEntries_result fs) h with
    ⟨h1, h2, h3⟩ | ⟨h1, h2⟩
  · rw [pair_of_snd_none h1, pair_of_snd_none h2]
    simp [encShape, h3]
  · rw [h1, h2]

theorem encShape_items_cons {x y : Value} {xs ys : List Value}
    (hx : encShape (Encode x) = encShape (Encode y))
    (h : encShape (encodeItems xs) = encShape (encodeItems ys)) :
    encShape (encodeItems (x :: xs)) = encShape (encodeItems (y :: ys)) := by
  rw [encodeItems_cons, encodeItems_cons]
  rcases encShape_cases (Encode_result x) (Encode_result y) hx with ⟨a1, a2, a3⟩ | ⟨a1, a2⟩
  · rcases encShape_cases (encodeItems_result xs) (encodeItems_result ys) h with
      ⟨h1, h2, h3⟩ | ⟨h1, h2⟩
    · rw [pair_of_snd_none a1, pair_of_snd_none a2, pair_of_snd_none h1, pair_of_snd_none h2]
      simp [encShape, a3, h3]
    · rw [pair_of_snd_none a1, pair_of_snd_none a2, h1, h2]
  · rw [a1, a2]

theorem encShape_entries_cons (k : Bytes) {v w : Value} {es fs : List (Bytes × Value)}
    (hx : encShape (Encode v) = encShape (Encode w))
    (h : encShape (encodeEntries es) = encShape (encodeEntries fs)) :
    encShape (encodeEntries ((k, v) :: es)) = encShape (encodeEntries ((k, w) :: fs)) := by
  rw [encodeEntries_cons, encodeEntries_cons]
  simp only [encodeString]
  rcases encShape_cases (Encode_result v) (Encode_result w) hx with ⟨a1, a2, a3⟩ | ⟨a1, a2⟩
  · rcases encShape_cases (encodeEntries_result es) (encodeEntries_result fs) h with
      ⟨h1, h2, h3⟩ | ⟨h1, h2⟩
    · rw [pair_of_snd_none a1, pair_of_snd_none a2, pair_of_snd_none h1, pair_of_snd_none h2]
      simp [encShape, a3, h3]
    · rw [pair_of_snd_none a1, pair_of_snd_none a2, h1, h2]
  · rw [a1, a2]

theorem encShape_entries_swap (a b : Bytes × Value) (es : List (Bytes × Value)) :
    encShape (encodeEntries (a :: b :: es)) = encShape (encodeEntries (b :: a :: es)) := by
  obtain ⟨ka, va⟩ := a
  obtain ⟨kb, vb⟩ := b
  simp only [encodeEntries_cons, encodeString]
  rcases Encode_result va with ha | ha <;> rcases Encode_result vb with hb | hb <;>
    rcases encodeEntries_result es with he | he
  all_goals first
    | rw [pair_of_snd_none ha, pair_of_snd_none hb, pair_of_snd_none he]
      simp only [encShape, List.length_append, List.length_cons]
      congr 1
      omega
    | rw [pair_of_snd_none ha, pair_of_snd_none hb, he]
    | rw [pair_of_snd_none ha, hb, pair_of_snd_none he]
    | rw [pair_of_snd_none ha, hb, he]
    | rw [ha, pair_of_snd_none hb, pair_of_snd_none he]
    | rw [ha, pair_of_snd_none hb, he]
    | rw [ha, hb, pair_of_snd_none he]
    | rw [ha, hb, he]

/-- The error and the length of an encoding do not depend on the order in
which map entries are visited, at any depth. -/
theorem encShape_same {v w : Value} (h : Value.Same v w) :
    encShape (Encode v) = encShape (Encode w) :=
  @Value.Same.rec
    (fun v w _ => encShape (Encode v) = encShape (Encode w))
    (fun xs ys _ => encShape (encodeItems xs) = encShape (encodeItems ys))
    (fun es fs _ => encShape (encodeEntries es) = encShape (encodeEntries fs))
    (fun _ => rfl) (fun _ => rfl) rfl rfl rfl
    (fun _ ih => encShape_list ih)
    (fun _ ih => encShape_dict ih)
    rfl
    (fun _ _ ih1 ih2 => encShape_items_cons ih1 ih2)
    rfl
    (fun {k} _ _ _ _ _ _ ih1 ih2 => encShape_entries_cons k ih1 ih2)
    (fun a b es => encShape_entries_swap a b es)
    (fun _ _ ih1 ih2 => ih1.trans ih2)
    v w h

/-- The text of the entries of a supported dictionary is the concatenation,
entry by entry, of the encoded key and the encoded value. -/
theorem encodeEntries_flatten (es : List (Bytes × Value)) (hs : supportedEntries es = true) :
    (encodeEntries es).1 =
      (es.map (fun e => (Encode (.str e.1)).1 ++ (Encode e.2).1)).flatten := by
  induction es with
  | nil => rfl
  | cons e es ih =>
    obtain ⟨k, v⟩ := e
    simp only [supportedEntries, Bool.and_eq_true] at hs
    rw [encodeEntries_cons_ok hs.1 hs.2, List.map_cons, List.flatten_cons, ← ih hs.2]
    simp only [Encode, List.append_assoc]

theorem decodeDictLoop_badkey {dec : Bytes → Res Value} {benc rem1 rem2 : Bytes}
    {key v : Value} (lf : Nat) (acc : List (Bytes × Value))
    (hhead : ∃ b r, benc = b :: r ∧ b ≠ c_e) (hns : ∀ s, key ≠ .str s)
    (hkey : decodeItem dec benc = .ok (key, rem1))
    (hval : decodeItem dec rem1 = .ok (v, rem2)) :
    decodeDictLoop dec (lf + 1) benc acc = .panicked .typeAssertion := by
  obtain ⟨b, r, hb, hne⟩ := hhead
  subst hb
  cases key with
  | str s => exact absurd rfl (hns s)
  | int _ => simp only [decodeDictLoop, hne, if_false, hkey, hval]
  | list _ => simp only [decodeDictLoop, hne, if_false, hkey, hval]
  | dict _ => simp only [decodeDictLoop, hne, if_false, hkey, hval]
  | nilList => simp only [decodeDictLoop, hne, if_false, hkey, hval]
  | nilDict => simp only [decodeDictLoop, hne, if_false, hkey, hval]
  | other => simp only [decodeDictLoop, hne, if_false, hkey, hval]

/-! ## The fuel of `Decode` is never exhausted -/

theorem Res.map_ne_outOfFuel {α β : Type} (f : α → β) {r : Res α} (h : r ≠ .outOfFuel) :
    r.map f ≠ .outOfFuel := by
  cases r with
  | ok a => exact fun h' => Res.noConfusion h'
  | err e => exact fun h' => Res.noConfusion h'
  | panicked p => exact fun h' => Res.noConfusion h'
  | outOfFuel => exact absurd rfl h

theorem Atoi_ne_outOfFuel (s : Bytes) : Atoi s ≠ .outOfFuel := by
  unfold Atoi
  split
  · exact fun h => Res.noConfusion h
  · simp only
    repeat' split
    all_goals exact fun h => Res.noConfusion h

theorem decodeInt_ne_outOfFuel (benc : Bytes) : decodeInt benc ≠ .outOfFuel := by
  unfold decodeInt
  split
  · exact fun h => Res.noConfusion h
  · exact Atoi_ne_outOfFuel _

theorem decodeString_ne_outOfFuel (benc : Bytes) : decodeString benc ≠ .outOfFuel := by
  unfold decodeString
  split
  · exact fun h => Res.noConfusion h
  · split
    · exact fun h => Res.noConfusion h
    · split
      · repeat' split
        all_goals exact fun h => Res.noConfusion h
      · exact fun h => Res.noConfusion h
      · exact fun h => Res.noConfusion h
      · rename_i heq
        exact absurd heq (Atoi_ne_outOfFuel _)

/-- A successful `Encode` returns at least one byte. -/
theorem Encode_length_pos {v : Value} {encoded : Bytes} (h : Encode v = (encoded, none)) :
    1 ≤ encoded.length := by
  have hs : v.supported = true := by
    cases hsup : v.supported with
    | true => rfl
    | false =>
      rw [(Encode_spec v).2 hsup] at h
      simp at h
  obtain ⟨b, r, hb, _⟩ := Encode_head hs
  rw [h] at hb
  simp only at hb
  rw [hb]
  simp

/-- A successful `decodeItem` returns a strictly shorter remaining input. -/
theorem decodeItem_shorter {dec : Bytes → Res Value} {benc remaining : Bytes} {item : Value}
    (h : decodeItem dec benc = .ok (item, remaining)) : remaining.length < benc.length := by
  unfold decodeItem at h
  split at h
  · split at h
    · rename_i henc
      split at h
      · exact Res.noConfusion h
      · rename_i hle
        have hpos := Encode_length_pos henc
        simp only [Res.ok.injEq, Prod.mk.injEq] at h
        rw [← h.2, List.length_drop]
        omega
    · exact Res.noConfusion h
  · exact Res.noConfusion h
  · exact Res.noConfusion h
  · exact Res.noConfusion h

theorem decodeItem_ne_outOfFuel {dec : Bytes → Res Value} {benc : Bytes}
    (h : dec benc ≠ .outOfFuel) : decodeItem dec benc ≠ .outOfFuel := by
  unfold decodeItem
  split
  · split
    · split <;> exact fun h' => Res.noConfusion h'
    · exact fun h' => Res.noConfusion h'
  · exact fun h' => Res.noConfusion h'
  · exact fun h' => Res.noConfusion h'
  · rename_i heq
    exact absurd heq h

theorem decodeListLoop_ne_outOfFuel (dec : Bytes → Res Value) :
    ∀ (lf : Nat) (benc : Bytes) (acc : List Value), benc.length < lf →
      (∀ b : Bytes, b.length ≤ benc.length → dec b ≠ .outOfFuel) →
      decodeListLoop dec lf benc acc ≠ .outOfFuel := by
  intro lf
  induction lf with
  | zero => intro benc _ h; omega
  | succ lf ih =>
    intro benc acc hlf hdec
    unfold decodeListLoop
    split
    · exact fun h => Res.noConfusion h
    · split
      · exact fun h => Res.noConfusion h
      · split
        · rename_i hitem
          have hlt := decodeItem_shorter hitem
          exact ih _ _ (by omega) (fun b hb => hdec b (by omega))
        · exact fun h => Res.noConfusion h
        · exact fun h => Res.noConfusion h
        · rename_i heq
          exact absurd heq (decodeItem_ne_outOfFuel (hdec _ (Nat.le_refl _)))

theorem decodeDictLoop_ne_outOfFuel (dec : Bytes → Res Value) :
    ∀ (lf : Nat) (benc : Bytes) (acc : List (Bytes × Value)), benc.length < lf →
      (∀ b : Bytes, b.length ≤ benc.length → dec b ≠ .outOfFuel) →
      decodeDictLoop dec lf benc acc ≠ .outOfFuel := by
  intro lf
  induction lf with
  | zero => intro benc _ h; omega
  | succ lf ih =>
    intro benc acc hlf hdec
    unfold decodeDictLoop
    split
    · exact fun h => Res.noConfusion h
    · split
      · exact fun h => Res.noConfusion h
      · split
        · rename_i hkey
          have hlt := decodeItem_shorter hkey
          split
          · rename_i hval
            have hlt2 := decodeItem_shorter hval
            split
            · exact ih _ _ (by omega) (fun b hb => hdec b (by omega))
            · exact fun h => Res.noConfusion h
          · exact fun h => Res.noConfusion h
          · exact fun h => Res.noConfusion h
          · rename_i heq
            exact absurd heq (decodeItem_ne_outOfFuel (hdec _ (by omega)))
        · exact fun h => Res.noConfusion h
        · exact fun h => Res.noConfusion h
        · rename_i heq
          exact absurd heq (decodeItem_ne_outOfFuel (hdec _ (Nat.le_refl _)))

theorem DecodeF_ne_outOfFuel :
    ∀ (fuel : Nat) (benc : Bytes), benc.length < fuel → DecodeF fuel benc ≠ .outOfFuel := by
  intro fuel
  induction fuel with
  | zero => intro benc h; omega
  | succ fuel ih =>
    intro benc hlen
    unfold DecodeF
    split
    · exact fun h => Res.noConfusion h
    · rename_i c r
      have hsub : ∀ b : Bytes, b.length ≤ (List.drop 1 (c :: r)).length →
          DecodeF fuel b ≠ .outOfFuel := by
        intro b hb
        apply ih
        simp only [List.drop_succ_cons, List.drop_zero, List.length_cons] at hb hlen
        omega
      split
      · split
        · exact fun h => Res.noConfusion h
        · exact Res.map_ne_outOfFuel _ (decodeInt_ne_outOfFuel _)
      · split
        · split
          · exact fun h => Res.noConfusion h
          · apply Res.map_ne_outOfFuel
            unfold decodeList
            exact decodeListLoop_ne_outOfFuel _ _ _ _
              (by simp only [List.drop_succ_cons, List.drop_zero, List.length_cons]; omega) hsub
        · split
          · split
            · exact fun h => Res.noConfusion h
            · apply Res.map_ne_outOfFuel
              unfold decodeDict
              exact decodeDictLoop_ne_outOfFuel _ _ _ _
                (by simp only [List.drop_succ_cons, List.drop_zero, List.length_cons]; omega) hsub
          · exact Res.map_ne_outOfFuel _ (decodeString_ne_outOfFuel _)

/-- `Decode` never runs out of fuel: on every input it returns a value,
returns an error, or panics. -/
theorem Decode_ne_outOfFuel (benc : Bytes) : Decode benc ≠ .outOfFuel :=
  DecodeF_ne_outOfFuel _ benc (Nat.lt_succ_self _)

/-! ## Properties of the codec -/

/-- C1 (as stated, refuted). The non-nil empty list and the nil slice have the
same encoding `le`, and `Decode` of `le` returns the nil slice, which is not
the non-nil empty list; the nil map and the empty map have the same encoding
`de`, and `Decode` of `de` returns the empty map, which is not the nil map. -/
theorem roundtrip_empty_list :
    Encode (.list []) = (bytes "le", none) ∧ Encode .nilList = (bytes "le", none) ∧
      Decode (bytes "le") = .ok .nilList ∧ Value.nilList ≠ Value.list [] ∧
      Encode .nilDict = (bytes "de", none) ∧ Encode (.dict []) = (bytes "de", none) ∧
      Decode (bytes "de") = .ok (.dict []) ∧ Value.dict [] ≠ Value.nilDict :=
  ⟨rfl, rfl, rfl, fun h => Value.noConfusion h, rfl, rfl, rfl, fun h => Value.noConfusion h⟩

/-- C1 (amended). Round trip: for every value built only from integers,
strings, lists and string-keyed dictionaries (any finite nesting), `Encode`
succeeds with some string and `Decode` of that string succeeds and returns the
value with every list without elements as the nil slice and every dictionary
without entries as a non-nil map; the result is the value itself exactly when
the value holds, at any depth, no non-nil empty list and no nil dictionary. -/
theorem roundtrip_decode_encode (v : Value) (hs : v.supported = true)
    (hr : v.representable = true) :
    ∃ b, Encode v = (b, none) ∧ Decode b = .ok v.decoded ∧
      (Decode b = .ok v ↔ v.plain = true) := by
  have h := DecodeF_Encode v hs hr [] (Or.inl rfl) ((Encode v).1.length + 1)
    (by simp)
  have hdec : Decode (Encode v).1 = .ok v.decoded := by simpa [Decode] using h
  refine ⟨(Encode v).1, Encode_ok hs, hdec, ?_⟩
  rw [hdec, ← decoded_eq_self_iff]
  constructor
  · intro heq
    exact Res.ok.inj heq
  · intro heq
    rw [heq]

theorem roundtrip_decode_encode_witness :
    ∃ b, Encode (.dict [(bytes "b", .list [.int (-7), .nilList, .dict []]),
        (bytes "a", .str (bytes "e:"))]) = (b, none) ∧
      Decode b = .ok (Value.dict [(bytes "b", .list [.int (-7), .nilList, .dict []]),
        (bytes "a", .str (bytes "e:"))]).decoded ∧
      (Decode b = .ok (.dict [(bytes "b", .list [.int (-7), .nilList, .dict []]),
        (bytes "a", .str (bytes "e:"))]) ↔
        (Value.dict [(bytes "b", .list [.int (-7), .nilList, .dict []]),
          (bytes "a", .str (bytes "e:"))]).plain = true) :=
  roundtrip_decode_encode _ (by decide) (by decide)

/-- C2 (as stated, refuted). `Encode` produces `d1:ai1e1:bi2ee` from the map
with `a ↦ 1` and `b ↦ 2`; `Decode` returns that map; `Encode` applied to the
same map, visiting `b` first, returns `d1:bi2e1:ai1ee`, which is not the
string that was decoded. -/
theorem reencode_not_exact :
    Encode (.dict [(bytes "a", .int 1), (bytes "b", .int 2)]) = (bytes "d1:ai1e1:bi2ee", none) ∧
    Decode (bytes "d1:ai1e1:bi2ee") = .ok (.dict [(bytes "a", .int 1), (bytes "b", .int 2)]) ∧
    Value.Same (.dict [(bytes "a", .int 1), (bytes "b", .int 2)])
      (.dict [(bytes "b", .int 2), (bytes "a", .int 1)]) ∧
    Encode (.dict [(bytes "b", .int 2), (bytes "a", .int 1)]) = (bytes "d1:bi2e1:ai1ee", none) ∧
    bytes "d1:bi2e1:ai1ee" ≠ bytes "d1:ai1e1:bi2ee" :=
  ⟨rfl, rfl, .dict (.swap _ _ _), rfl, by decide⟩

/-- C2 (amended). For every string `b` that `Encode` produces from a supported
value, `Decode b` succeeds with some value `w`; `Encode` applied to `w` returns
exactly `b` when it visits the entries of every dictionary in the order in
which they occur in `b`, and for every other visiting order it succeeds with a
string of the same length as `b`. -/
theorem reencode_decoded (v : Value) (b : Bytes) (hs : v.supported = true)
    (hr : v.representable = true) (hb : Encode v = (b, none)) :
    ∃ w, Decode b = .ok w ∧ Encode w = (b, none) ∧
      ∀ w', Value.Same w w' → ∃ b', Encode w' = (b', none) ∧ b'.length = b.length := by
  have hdec := DecodeF_Encode v hs hr [] (Or.inl rfl) ((Encode v).1.length + 1) (by simp)
  rw [hb] at hdec
  have hw0 : Encode v.decoded = (b, none) := by rw [Encode_decoded, hb]
  refine ⟨v.decoded, by simpa [Decode] using hdec, hw0, ?_⟩
  intro w' hw
  have h := encShape_same hw
  rw [hw0] at h
  simp only [encShape, Prod.mk.injEq] at h
  exact ⟨(Encode w').1, pair_of_snd_none h.2.symm, h.1.symm⟩

theorem reencode_decoded_witness :
    ∃ w, Decode (bytes "d1:ai1e1:bl1:xee") = .ok w ∧
      Encode w = (bytes "d1:ai1e1:bl1:xee", none) ∧
      ∀ w', Value.Same w w' →
        ∃ b', Encode w' = (b', none) ∧ b'.length = (bytes "d1:ai1e1:bl1:xee").length :=
  reencode_decoded (.dict [(bytes "a", .int 1), (bytes "b", .list [.str (bytes "x")])])
    (bytes "d1:ai1e1:bl1:xee") (by decide) (by decide) rfl

/-- C3 (refuted at two inputs). `Decode` panics on `di1ei2ee`, where the type
assertion `key.(string)` in `decodeDict` meets an integer key, and on `lli1e`,
where `decodeItem` slices `li1e` at the length of `li1ee`. -/
theorem decode_panics :
    Decode (bytes "di1ei2ee") = .panicked .typeAssertion ∧
      Decode (bytes "lli1e") = .panicked .sliceBounds :=
  ⟨rfl, rfl⟩

/-- C4. `Encode` fails exactly when its argument is not supported (it is, or
contains at some depth as a list element or dictionary value, a value outside
the four kinds); a failure is `unsupportedType` with the empty string; on every
supported value `Encode` succeeds. -/
theorem encode_fails_iff_unsupported (v : Value) :
    ((Encode v).2 ≠ none ↔ v.supported = false) ∧
      ((Encode v).2 ≠ none → Encode v = ([], some .unsupportedType)) ∧
      (v.supported = true → ∃ b, Encode v = (b, none)) := by
  have hspec := Encode_spec v
  have hiff : (Encode v).2 ≠ none ↔ v.supported = false := by
    constructor
    · intro h
      cases hs : v.supported with
      | true => exact absurd (hspec.1 hs) h
      | false => rfl
    · intro hs
      rw [hspec.2 hs]
      simp
  exact ⟨hiff, fun h => hspec.2 (hiff.mp h), fun hs => ⟨_, Encode_ok hs⟩⟩

/-- C5. For pairwise distinct string keys and supported values, listed in any
order, decoding `d`, then each encoded key followed by its encoded value, then
`e`, succeeds and returns the dictionary with exactly these keys, each mapped
to its value as `Decode` represents it, which is the value itself when it
holds no non-nil empty list and no nil dictionary. -/
theorem decode_dict_entries (es : List (Bytes × Value)) (hk : (keysOf es).Nodup)
    (hs : ∀ e ∈ es, e.2.supported = true)
    (hr : ∀ e ∈ es, (e.1.length : Int) ≤ maxInt ∧ e.2.representable = true) :
    Decode (c_d :: ((es.map (fun e => (Encode (.str e.1)).1 ++ (Encode e.2).1)).flatten ++ [c_e])) =
        .ok (.dict (decodedEntries es)) ∧
      keysOf (decodedEntries es) = keysOf es ∧
      ((∀ e ∈ es, e.2.plain = true) → decodedEntries es = es) := by
  have hs' : supportedEntries es = true := (supportedEntries_iff es).mpr hs
  have hr' : representableEntries es = true := (representableEntries_iff es).mpr hr
  have hsv : (Value.dict es).supported = true := by simpa [Value.supported] using hs'
  have hrv : (Value.dict es).representable = true := by
    simp [Value.representable, hk, hr']
  have hdec := DecodeF_Encode (.dict es) hsv hrv [] (Or.inl rfl)
    ((Encode (.dict es)).1.length + 1) (by simp)
  rw [Encode_dict_ok hs', encodeEntries_flatten es hs'] at hdec
  refine ⟨by simpa [Decode, Value.decoded] using hdec, keysOf_decodedEntries es, ?_⟩
  intro hp
  exact (decodedEntries_fixed es).mpr (fun e he => (decoded_eq_self_iff e.2).mpr (hp e he))

theorem decode_dict_entries_witness :
    Decode (c_d :: (([(bytes "foo", Value.int 42), (bytes "bar", Value.str (bytes "spam"))].map
        (fun e => (Encode (.str e.1)).1 ++ (Encode e.2).1)).flatten ++ [c_e])) =
        .ok (.dict (decodedEntries
          [(bytes "foo", Value.int 42), (bytes "bar", Value.str (bytes "spam"))])) ∧
      keysOf (decodedEntries
          [(bytes "foo", Value.int 42), (bytes "bar", Value.str (bytes "spam"))]) =
        keysOf [(bytes "foo", Value.int 42), (bytes "bar", Value.str (bytes "spam"))] ∧
      ((∀ e ∈ [(bytes "foo", Value.int 42), (bytes "bar", Value.str (bytes "spam"))],
          e.2.plain = true) →
        decodedEntries [(bytes "foo", Value.int 42), (bytes "bar", Value.str (bytes "spam"))] =
          [(bytes "foo", Value.int 42), (bytes "bar", Value.str (bytes "spam"))]) :=
  decode_dict_entries _ (by decide) (by decide) (by decide)

/-- C6 (what the code does instead). For every supported key item that is an
integer, a list or a dictionary and every supported value item, `Decode` of
`d`, the encoded key, the encoded value, `e` panics at the type assertion
`key.(string)`; it returns neither an error nor a dictionary. -/
theorem decode_dict_nonstring_key_panics (k v : Value) (hks : k.supported = true)
    (hkr : k.representable = true) (hvs : v.supported = true) (hvr : v.representable = true)
    (hns : ∀ s, k ≠ .str s) :
    Decode (c_d :: ((Encode k).1 ++ (Encode v).1 ++ [c_e])) = .panicked .typeAssertion := by
  unfold Decode
  simp only [List.append_assoc]
  generalize hf : (c_d :: ((Encode k).1 ++ ((Encode v).1 ++ [c_e]))).length = fuel
  simp only [List.length_cons, List.length_append, List.length_nil] at hf
  rw [← List.append_assoc, DecodeF_dict fuel ((Encode k).1 ++ (Encode v).1) [] (Or.inl rfl)]
  simp only [List.append_assoc]
  have hkdec := DecodeF_Encode k hks hkr ((Encode v).1 ++ [c_e])
    (Or.inr (getLast?_append_e _ [] (Or.inl rfl))) fuel
    (by simp only [List.length_cons, List.length_append, List.length_nil]; omega)
  have hvdec := DecodeF_Encode v hvs hvr [c_e] (Or.inr rfl) fuel
    (by simp only [List.length_cons, List.length_append, List.length_nil]; omega)
  have hkey := decodeItem_of_decode hks hkdec
  have hval := decodeItem_of_decode hvs hvdec
  obtain ⟨b, r, hb, hne⟩ := Encode_head hks
  have hhead : ∃ b0 r0, (Encode k).1 ++ ((Encode v).1 ++ [c_e]) = b0 :: r0 ∧ b0 ≠ c_e :=
    ⟨b, r ++ ((Encode v).1 ++ [c_e]), by rw [hb]; rfl, hne⟩
  have hns' : ∀ s, k.decoded ≠ .str s := fun s h => hns s (decoded_eq_str h)
  rw [decodeDictLoop_badkey _ [] hhead hns' hkey hval]
  rfl

theorem decode_dict_nonstring_key_panics_witness :
    Decode (c_d :: ((Encode (.int 1)).1 ++ (Encode (.int 2)).1 ++ [c_e])) =
      .panicked .typeAssertion :=
  decode_dict_nonstring_key_panics (.int 1) (.int 2) (by decide) (by decide) (by decide)
    (by decide) (fun s h => Value.noConfusion h)

/-- C7 (refuted at two inputs). The list bodies `li1e` and `l1:e`, that is `l`
followed by the encoding of the integer 1, respectively of the string `e`,
with no closing `e`, are decoded without error. -/
theorem decode_unterminated_list_accepted :
    c_l :: (Encode (.int 1)).1 = bytes "li1e" ∧
      Decode (bytes "li1e") = .ok (.list [.int 1]) ∧
      c_l :: (Encode (.str (bytes "e"))).1 = bytes "l1:e" ∧
      Decode (bytes "l1:e") = .ok (.list [.str (bytes "e")]) :=
  ⟨rfl, rfl, rfl, rfl⟩

/-- C8. `Decode` fails with `invalidFormat` on the empty input and on every
input whose first byte is `i`, `l` or `d` and whose last byte is not `e`. -/
theorem decode_invalidFormat (benc : Bytes)
    (h : benc = [] ∨
      ∃ b r, benc = b :: r ∧ (b = c_i ∨ b = c_l ∨ b = c_d) ∧ benc.getLast? ≠ some c_e) :
    Decode benc = .err .invalidFormat := by
  rcases h with h | ⟨b, r, hb, hk, hlast⟩
  · subst h
    rfl
  · subst hb
    have hli : c_l ≠ c_i := by decide
    have hdi : c_d ≠ c_i := by decide
    have hdl : c_d ≠ c_l := by decide
    rcases hk with hk | hk | hk <;> subst hk <;>
      simp only [Decode, DecodeF, hli, hdi, hdl, if_true, if_false, hlast, ne_eq,
        not_false_eq_true, or_true]

theorem decode_invalidFormat_witness :
    Decode (bytes "i") = .err .invalidFormat ∧ Decode (bytes "l4:spam") = .err .invalidFormat :=
  ⟨decode_invalidFormat (bytes "i") (Or.inr ⟨c_i, [], rfl, Or.inl rfl, by decide⟩),
    decode_invalidFormat (bytes "l4:spam")
      (Or.inr ⟨c_l, bytes "4:spam", rfl, Or.inr (Or.inl rfl), by decide⟩)⟩

/-- C9. For a non-empty text of decimal digits whose value `n` fits the native
`int` and a content of at least `n` bytes, `Decode` of the text, a colon and the
content succeeds and returns the first `n` bytes of the content, a string of
exactly `n` bytes. -/
theorem decode_string_prefix (ds c : Bytes) (hne : ds ≠ []) (hd : ds.all isDigit = true)
    (hr : (parseNat ds : Int) ≤ maxInt) (hlen : parseNat ds ≤ c.length) :
    Decode (ds ++ c_colon :: c) = .ok (.str (c.take (parseNat ds))) ∧
      (c.take (parseNat ds)).length = parseNat ds := by
  refine ⟨?_, by simp [hlen]⟩
  unfold Decode
  rw [DecodeF_digits hne hd hr, if_neg (by omega)]

theorem decode_string_prefix_witness :
    Decode (bytes "0" ++ c_colon :: []) = .ok (.str ([].take (parseNat (bytes "0")))) ∧
      (([] : Bytes).take (parseNat (bytes "0"))).length = parseNat (bytes "0") :=
  decode_string_prefix (bytes "0") [] (by decide) (by decide) (by decide) (by decide)

/-- C10 (as stated, refuted). The length text `9223372036854775808` is a
non-empty string of digits whose value exceeds the number of bytes after the
colon (none), and `Decode` fails with the error of `strconv.Atoi`, not with
`strLenExceedsDataErr`. -/
theorem decode_length_out_of_range :
    (bytes "9223372036854775808").all isDigit = true ∧
      ([] : Bytes).length < parseNat (bytes "9223372036854775808") ∧
      Decode (bytes "9223372036854775808" ++ c_colon :: []) = .err .numError ∧
      Decode (bytes "9223372036854775808" ++ c_colon :: []) ≠ .err .strLenExceedsDataErr :=
  ⟨by decide, by decide, rfl, fun h => Err.noConfusion (Res.err.inj h)⟩

/-- C10 (amended). For a non-empty text of decimal digits whose value fits the
native `int` and exceeds the number of bytes of the content, `Decode` of the
text, a colon and the content fails with `strLenExceedsDataErr`. -/
theorem decode_length_exceeds_data (ds c : Bytes) (hne : ds ≠ [])
    (hd : ds.all isDigit = true) (hr : (parseNat ds : Int) ≤ maxInt)
    (hlen : c.length < parseNat ds) :
    Decode (ds ++ c_colon :: c) = .err .strLenExceedsDataErr := by
  unfold Decode
  rw [DecodeF_digits hne hd hr, if_pos hlen]

theorem decode_length_exceeds_data_witness :
    Decode (bytes "10" ++ c_colon :: bytes "spamx") = .err .strLenExceedsDataErr :=
  decode_length_exceeds_data (bytes "10") (bytes "spamx") (by decide) (by decide) (by decide)
    (by decide)

/-! ## Strings: separator and length text -/

theorem splitColon_none {benc : Bytes} (h : c_colon ∉ benc) : splitColon benc = none := by
  induction benc with
  | nil => rfl
  | cons x xs ih =>
    simp only [List.mem_cons, not_or] at h
    have hx : x ≠ c_colon := fun h' => h.1 h'.symm
    simp [splitColon, hx, ih h.2]

/-- C11. For every non-empty input whose first byte is not `i`, `l` or `d` and
which contains no `:` byte, `Decode` fails with `missingColonErr`. -/
theorem decode_missing_colon (b : UInt8) (r : Bytes) (hi : b ≠ c_i) (hl : b ≠ c_l)
    (hd : b ≠ c_d) (hc : c_colon ∉ b :: r) :
    Decode (b :: r) = .err .missingColonErr := by
  unfold Decode
  rw [DecodeF_default _ b r hi hl hd]
  unfold decodeString
  rw [splitColon_none hc]
  rfl

theorem decode_missing_colon_witness :
    Decode (bytes "4spam") = .err .missingColonErr :=
  decode_missing_colon 52 (bytes "spam") (by decide) (by decide) (by decide) (by decide)

/-- C12. For every non-empty input whose first byte is not `i`, `l` or `d`, that
contains a `:` and has a byte that is not a decimal digit before the first
`:`, `Decode` fails with `invalidCharErr`, whatever follows the `:`. -/
theorem decode_invalid_length_char (b : UInt8) (r pre post : Bytes) (hi : b ≠ c_i)
    (hl : b ≠ c_l) (hd : b ≠ c_d) (hsplit : b :: r = pre ++ c_colon :: post)
    (hfirst : c_colon ∉ pre) (hbad : ∃ x ∈ pre, isDigit x = false) :
    Decode (b :: r) = .err .invalidCharErr := by
  unfold Decode
  rw [DecodeF_default _ b r hi hl hd, hsplit]
  unfold decodeString
  rw [splitColon_append pre post (fun x hx h => hfirst (h ▸ hx))]
  have hall : pre.all isDigit = false := by
    obtain ⟨x, hx, hxd⟩ := hbad
    rw [List.all_eq_false]
    exact ⟨x, hx, by simp [hxd]⟩
  simp only [hall, if_true]
  rfl

theorem decode_invalid_length_char_witness :
    Decode (bytes "x:spam") = .err .invalidCharErr :=
  decode_invalid_length_char 120 (bytes ":spam") [120] (bytes "spam") (by decide) (by decide)
    (by decide) rfl (by decide) ⟨120, by decide, by decide⟩

/-! ## One item at a time -/

/-- C16. `decodeItem` consumes exactly one item of canonical input: for every
supported value and every trailer that has a last byte, which is `e`,
`decodeItem` on the encoding followed by the trailer succeeds and returns the
item, as `Decode` represents the value (the value itself when it holds no
non-nil empty list and no nil dictionary), together with exactly the
trailer. -/
theorem decodeItem_encode_trailer (v : Value) (t : Bytes) (hs : v.supported = true)
    (hr : v.representable = true) (ht : t.getLast? = some c_e) :
    decodeItem Decode ((Encode v).1 ++ t) = .ok (v.decoded, t) ∧
      (v.plain = true → decodeItem Decode ((Encode v).1 ++ t) = .ok (v, t)) := by
  have h : decodeItem Decode ((Encode v).1 ++ t) = .ok (v.decoded, t) := by
    apply decodeItem_of_decode hs
    exact DecodeF_Encode v hs hr t (Or.inr ht) _ (Nat.lt_succ_self _)
  refine ⟨h, fun hp => ?_⟩
  rw [h, (decoded_eq_self_iff v).mpr hp]

theorem decodeItem_encode_trailer_witness :
    decodeItem Decode ((Encode (.dict [(bytes "k", .list [.int 0, .str (bytes "e")])])).1 ++
        bytes "i2ee") =
        .ok ((Value.dict [(bytes "k", .list [.int 0, .str (bytes "e")])]).decoded,
          bytes "i2ee") ∧
      ((Value.dict [(bytes "k", .list [.int 0, .str (bytes "e")])]).plain = true →
        decodeItem Decode ((Encode (.dict [(bytes "k", .list [.int 0, .str (bytes "e")])])).1 ++
          bytes "i2ee") =
        .ok (.dict [(bytes "k", .list [.int 0, .str (bytes "e")])], bytes "i2ee")) :=
  decodeItem_encode_trailer _ (bytes "i2ee") (by decide) (by decide) (by decide)

/-- C19. The length of an encoding does not depend on the order in which the
entries of a dictionary are visited: for two presentations of one value that
differ only in the order of dictionary entries, at any depth, `Encode` succeeds
on both or fails on both, and when it succeeds the two results have the same
length, so `decodeItem` cuts the same remaining input for both. -/
theorem encode_length_order_independent (v w : Value) (h : Value.Same v w) :
    ((Encode v).2 = none ↔ (Encode w).2 = none) ∧
      ((Encode v).2 = none → (Encode v).1.length = (Encode w).1.length) ∧
      ∀ benc : Bytes, benc.drop (Encode v).1.length = benc.drop (Encode w).1.length := by
  have hsh := encShape_same h
  simp only [encShape, Prod.mk.injEq] at hsh
  refine ⟨by rw [hsh.2], fun _ => hsh.1, fun benc => by rw [hsh.1]⟩

theorem encode_length_order_independent_witness :
    ((Encode (.dict [(bytes "a", .int 1), (bytes "b", .dict [(bytes "x", .int 2),
        (bytes "y", .str [])])])).2 = none ↔
      (Encode (.dict [(bytes "b", .dict [(bytes "y", .str []), (bytes "x", .int 2)]),
        (bytes "a", .int 1)])).2 = none) ∧
    ((Encode (.dict [(bytes "a", .int 1), (bytes "b", .dict [(bytes "x", .int 2),
        (bytes "y", .str [])])])).2 = none →
      (Encode (.dict [(bytes "a", .int 1), (bytes "b", .dict [(bytes "x", .int 2),
        (bytes "y", .str [])])])).1.length =
      (Encode (.dict [(bytes "b", .dict [(bytes "y", .str []), (bytes "x", .int 2)]),
        (bytes "a", .int 1)])).1.length) ∧
    ∀ benc : Bytes,
      benc.drop (Encode (.dict [(bytes "a", .int 1), (bytes "b", .dict [(bytes "x", .int 2),
        (bytes "y", .str [])])])).1.length =
      benc.drop (Encode (.dict [(bytes "b", .dict [(bytes "y", .str []), (bytes "x", .int 2)]),
        (bytes "a", .int 1)])).1.length :=
  encode_length_order_independent _ _
    (.dict (.trans (.swap _ _ _)
      (.cons (.dict (.swap _ _ _)) (.cons (.int 1) .nil))))

/-! ## Canonical decimal text -/

theorem digitByte_eq_zero {d : Nat} (h : d < 10) (h0 : digitByte d = 48) : d = 0 := by
  have := digitByte_toNat h
  rw [h0] at this
  have h48 : (48 : UInt8).toNat = 48 := rfl
  omega

theorem natDigits_no_leading_zero : ∀ (fuel n : Nat), n < fuel →
    (natDigits fuel n).head? = some 48 → natDigits fuel n = [48] := by
  intro fuel
  induction fuel with
  | zero => intro n h; omega
  | succ fuel ih =>
    intro n h
    unfold natDigits
    by_cases hn : n < 10
    · rw [if_pos hn]
      intro h0
      simp only [List.head?_cons, Option.some.injEq] at h0
      rw [h0]
    · rw [if_neg hn]
      intro h0
      have hlt : n / 10 < fuel := by omega
      obtain ⟨hp, _, hne⟩ := natDigits_spec fuel (n / 10) hlt
      have hhead : (natDigits fuel (n / 10)).head? = some 48 := by
        cases hd : natDigits fuel (n / 10) with
        | nil => exact absurd hd hne
        | cons x xs =>
          rw [hd] at h0
          simpa using h0
      have hz := ih (n / 10) hlt hhead
      rw [hz] at hp
      have : parseNat [48] = 0 := rfl
      omega

theorem formatNat_canonical (m : Nat) : canonicalDigits m (formatNat m) :=
  ⟨formatNat_ne_nil m, formatNat_all_isDigit m, parseNat_formatNat m,
    natDigits_no_leading_zero (m + 1) m (Nat.lt_succ_self m)⟩

theorem Itoa_canonical (n : Int) : canonicalDecimal n (Itoa n) := by
  unfold canonicalDecimal Itoa
  by_cases hn : n < 0
  · rw [if_pos hn, if_pos hn]
    exact ⟨_, rfl, formatNat_canonical _⟩
  · rw [if_neg hn, if_neg hn]
    exact formatNat_canonical _

/-- C13. For every integer `n`, `Encode` succeeds and returns `i`, then the
canonical decimal representation of `n` (a `-` exactly when `n < 0`, digits
without leading zeros), then `e`; for `n = 0` the text is the single digit
`0`. -/
theorem encode_int_canonical (n : Int) :
    ∃ d, Encode (.int n) = (c_i :: (d ++ [c_e]), none) ∧ canonicalDecimal n d ∧
      (n = 0 → d = [48]) ∧ (d.head? = some c_minus ↔ n < 0) := by
  refine ⟨Itoa n, Encode_int n, Itoa_canonical n, ?_, ?_⟩
  · intro h
    rw [h]
    rfl
  · unfold Itoa
    by_cases hn : n < 0
    · simp [hn]
    · rw [if_neg hn]
      obtain ⟨b, r, hb, hd⟩ := formatNat_head n.natAbs
      rw [hb]
      simp only [List.head?_cons, Option.some.injEq, hn, iff_false]
      exact isDigit_ne hd (by decide)

/-- C14. For every string `s`, whatever its bytes, `Encode` succeeds and
returns the canonical decimal representation of the length of `s`, then `:`,
then the bytes of `s` unchanged. -/
theorem encode_string_canonical (s : Bytes) :
    ∃ d, Encode (.str s) = (d ++ c_colon :: s, none) ∧ canonicalDigits s.length d := by
  refine ⟨formatNat s.length, ?_, formatNat_canonical _⟩
  simp only [Encode, encodeString, Itoa_natCast]

theorem natDigits_fuel : ∀ (f f' n : Nat), n < f → n < f' → natDigits f n = natDigits f' n := by
  intro f
  induction f with
  | zero => intro f' n h; omega
  | succ f ih =>
    intro f' n h h'
    cases f' with
    | zero => omega
    | succ f' =>
      unfold natDigits
      by_cases hn : n < 10
      · rw [if_pos hn, if_pos hn]
      · rw [if_neg hn, if_neg hn, ih f' (n / 10) (by omega) (by omega)]

theorem formatNat_small {m : Nat} (h : m < 10) : formatNat m = [digitByte m] := by
  unfold formatNat natDigits
  rw [if_pos h]

theorem formatNat_large {m : Nat} (h : ¬ m < 10) :
    formatNat m = formatNat (m / 10) ++ [digitByte (m % 10)] := by
  unfold formatNat
  rw [natDigits, if_neg h, natDigits_fuel m (m / 10 + 1) (m / 10) (by omega) (by omega)]

theorem digitByte_of_isDigit {b : UInt8} (h : isDigit b = true) :
    b.toNat - 48 < 10 ∧ digitByte (b.toNat - 48) = b := by
  rw [isDigit_iff] at h
  have hlt : b.toNat - 48 < 10 := by omega
  refine ⟨hlt, ?_⟩
  apply UInt8.eq_of_toBitVec_eq
  apply BitVec.eq_of_toNat_eq
  have := digitByte_toNat hlt
  simp only [UInt8.toNat] at this h ⊢
  omega

/-- The decimal representation without leading zeros is unique. -/
theorem canonicalDigits_unique : ∀ (ds : Bytes) (m : Nat), canonicalDigits m ds →
    ds = formatNat m := by
  intro ds
  induction ds using List.reverseRecOn with
  | nil => intro m h; exact absurd rfl h.1
  | append_singleton init last ih =>
    intro m ⟨_, hd, hp, hz⟩
    rw [List.all_append, Bool.and_eq_true] at hd
    have hlast : isDigit last = true := by simpa using hd.2
    obtain ⟨hlt, hbyte⟩ := digitByte_of_isDigit hlast
    rw [parseNat_snoc] at hp
    cases hinit : init with
    | nil =>
      subst hinit
      have h0 : parseNat [] = 0 := rfl
      rw [h0] at hp
      have hm : m < 10 := by omega
      rw [formatNat_small hm, ← hbyte]
      simp only [List.nil_append]
      congr 2
      omega
    | cons x xs =>
      have hne : init ≠ [] := by rw [hinit]; simp
      have hx : x ≠ 48 := by
        intro hx48
        have := hz (by rw [hinit, hx48]; rfl)
        rw [hinit] at this
        simp at this
      have hcan : canonicalDigits (parseNat init) init :=
        ⟨hne, hd.1, rfl, fun h => by rw [hinit] at h; simp at h; exact absurd h hx⟩
      have hfi := ih (parseNat init) hcan
      have hpos : 1 ≤ parseNat init := by
        by_contra hlt1
        have h0 : parseNat init = 0 := by omega
        rw [h0] at hfi
        rw [hinit] at hfi
        have : formatNat 0 = [48] := rfl
        rw [this] at hfi
        simp only [List.cons.injEq] at hfi
        exact hx hfi.1
      have hm10 : ¬ m < 10 := by omega
      have hdiv : m / 10 = parseNat init := by omega
      have hmod : m % 10 = last.toNat - 48 := by omega
      rw [← hinit, formatNat_large hm10, hdiv, hmod, hbyte, ← hfi]

/-- The canonical decimal representation of an integer is unique: it is the
text `strconv.Itoa` returns. -/
theorem canonicalDecimal_unique {n : Int} {d : Bytes} (h : canonicalDecimal n d) :
    d = Itoa n := by
  unfold canonicalDecimal at h
  unfold Itoa
  by_cases hn : n < 0
  · rw [if_pos hn] at h ⊢
    obtain ⟨ds, hd, hc⟩ := h
    rw [hd, canonicalDigits_unique ds _ hc]
  · rw [if_neg hn] at h ⊢
    exact canonicalDigits_unique d _ h

theorem canonicalDecimal_iff (n : Int) (d : Bytes) : canonicalDecimal n d ↔ d = Itoa n :=
  ⟨canonicalDecimal_unique, fun h => h ▸ Itoa_canonical n⟩

theorem canonicalDigits_iff (m : Nat) (ds : Bytes) : canonicalDigits m ds ↔ ds = formatNat m :=
  ⟨canonicalDigits_unique ds m, fun h => h ▸ formatNat_canonical m⟩

/-! ## Integer text -/

/-- The texts `strconv.Atoi` accepts: an optional `-` or `+`, then one or more
digits, the value within the native range. -/
theorem Atoi_ok_iff (s : Bytes) (n : Int) :
    Atoi s = .ok n ↔
      ∃ ds, ds ≠ [] ∧ ds.all isDigit = true ∧
        (((s = ds ∨ s = c_plus :: ds) ∧ (parseNat ds : Int) ≤ maxInt ∧ n = parseNat ds) ∨
          (s = c_minus :: ds ∧ minInt ≤ -(parseNat ds : Int) ∧ n = -(parseNat ds : Int))) := by
  constructor
  · intro h
    cases s with
    | nil => exact Res.noConfusion h
    | cons c rest =>
      by_cases hm : c = c_minus
      · subst hm
        simp only [Atoi, true_or, if_true, decide_True] at h
        split at h
        · exact Res.noConfusion h
        · rename_i hok
          rw [not_or] at hok
          split at h
          · exact Res.noConfusion h
          · rename_i hrange
            refine ⟨rest, hok.1, by simpa using hok.2, Or.inr ⟨rfl, not_lt.mp hrange, ?_⟩⟩
            exact (Res.ok.inj h).symm
      · by_cases hp : c = c_plus
        · subst hp
          simp only [Atoi, or_true, if_true] at h
          split at h
          · exact Res.noConfusion h
          · rename_i hok
            rw [not_or] at hok
            have hnm : decide (c_plus = c_minus) = false := by decide
            simp only [hnm, Bool.false_eq_true, if_false] at h
            split at h
            · exact Res.noConfusion h
            · rename_i hrange
              refine ⟨rest, hok.1, by simpa using hok.2,
                Or.inl ⟨Or.inr rfl, not_lt.mp hrange, ?_⟩⟩
              exact (Res.ok.inj h).symm
        · simp only [Atoi, hm, hp, or_self, if_false, decide_False] at h
          split at h
          · exact Res.noConfusion h
          · rename_i hok
            rw [not_or] at hok
            simp only [Bool.false_eq_true, if_false] at h
            split at h
            · exact Res.noConfusion h
            · rename_i hrange
              refine ⟨c :: rest, hok.1, by simpa using hok.2,
                Or.inl ⟨Or.inl rfl, not_lt.mp hrange, ?_⟩⟩
              exact (Res.ok.inj h).symm
  · rintro ⟨ds, hne, hd, ⟨hs | hs, hr, hn⟩ | ⟨hs, hr, hn⟩⟩
    · rw [hs, hn]
      exact Atoi_digits hne hd hr
    · rw [hs, hn]
      have hnm : decide (c_plus = c_minus) = false := by decide
      simp only [Atoi, or_true, if_true, hnm, hd, hne, false_or, Bool.true_eq_false,
        Bool.false_eq_true, if_false, not_lt.mpr hr]
    · rw [hs, hn]
      simp only [Atoi, true_or, if_true, decide_True, hd, hne, false_or, Bool.true_eq_false,
        if_false, not_lt.mpr hr]

/-- `Decode` on `i`, a text without `e`, `e`, and a trailer that is empty or
ends in `e`: the text goes to `strconv.Atoi`. -/
theorem DecodeF_int_text (c t : Bytes) (hc : ∀ b ∈ c, b ≠ c_e)
    (ht : t = [] ∨ t.getLast? = some c_e) (fuel : Nat) :
    DecodeF (fuel + 1) (c_i :: (c ++ c_e :: t)) = (Atoi c).map Value.int := by
  have hlast : (c_i :: (c ++ c_e :: t)).getLast? = some c_e := by
    have := getLast?_append_e (c_i :: c) t ht
    simpa using this
  have hlen : ¬ (c_i :: (c ++ c_e :: t)).length < 2 := by
    simp only [List.length_cons, List.length_append]
    omega
  have hidx : indexByte (c ++ c_e :: t) c_e = some c.length := indexByte_append _ _ _ hc
  simp only [DecodeF, if_true]
  rw [if_neg]
  · simp only [decodeInt, List.drop_succ_cons, List.drop_zero, hidx, List.take_left]
  · rw [not_or, not_not]
    exact ⟨hlen, hlast⟩

/-- What the code accepts between `i` and `e`: for every text `c` without an
`e` byte, `Decode` of `i`, `c`, `e` succeeds exactly when `c` is an optional
`-` or `+` followed by one or more decimal digits whose signed value is within
the native `int`, and it then returns that integer. -/
theorem Decode_int_text_iff (c : Bytes) (hc : ∀ b ∈ c, b ≠ c_e) (v : Value) :
    Decode (c_i :: (c ++ [c_e])) = .ok v ↔
      ∃ ds, ds ≠ [] ∧ ds.all isDigit = true ∧
        (((c = ds ∨ c = c_plus :: ds) ∧ (parseNat ds : Int) ≤ maxInt ∧
            v = .int (parseNat ds)) ∨
          (c = c_minus :: ds ∧ minInt ≤ -(parseNat ds : Int) ∧
            v = .int (-(parseNat ds : Int)))) := by
  unfold Decode
  rw [DecodeF_int_text c [] hc (Or.inl rfl)]
  constructor
  · intro h
    cases hA : Atoi c with
    | ok n =>
      rw [hA] at h
      have hv : v = .int n := (Res.ok.inj h).symm
      obtain ⟨ds, hne, hd, hcase⟩ := (Atoi_ok_iff c n).mp hA
      refine ⟨ds, hne, hd, ?_⟩
      rcases hcase with ⟨hs, hr, hn⟩ | ⟨hs, hr, hn⟩
      · exact Or.inl ⟨hs, hr, by rw [hv, hn]⟩
      · exact Or.inr ⟨hs, hr, by rw [hv, hn]⟩
    | err e => rw [hA] at h; exact Res.noConfusion h
    | panicked p => rw [hA] at h; exact Res.noConfusion h
    | outOfFuel => rw [hA] at h; exact Res.noConfusion h
  · rintro ⟨ds, hne, hd, ⟨hs, hr, hv⟩ | ⟨hs, hr, hv⟩⟩
    · rw [(Atoi_ok_iff c _).mpr ⟨ds, hne, hd, Or.inl ⟨hs, hr, rfl⟩⟩, hv]
      rfl
    · rw [(Atoi_ok_iff c _).mpr ⟨ds, hne, hd, Or.inr ⟨hs, hr, rfl⟩⟩, hv]
      rfl

/-- C17 (refuted at `i+5e`). The text `+5` contains no `e` and is not an
optional `-` followed by digits, yet `Decode` of `i+5e` succeeds, with 5.  The
length text of a string is held to digits (`+1:a` is rejected with
`invalidCharErr`), and inside a list or a dictionary the accepted `+` makes
`decodeItem` cut three bytes of a four-byte item: `li+5ei7ee` decodes to the
list of 5 alone and `d1:ai+1e1:bi2ee` to the dictionary with the key `a`
alone. -/
theorem decode_int_plus_sign :
    Decode (c_i :: (bytes "+5" ++ [c_e])) = .ok (.int 5) ∧
      (∀ b ∈ bytes "+5", b ≠ c_e) ∧
      (¬ ∃ ds, ds ≠ [] ∧ ds.all isDigit = true ∧
        (bytes "+5" = ds ∨ bytes "+5" = c_minus :: ds)) ∧
      Decode (bytes "+1:a") = .err .invalidCharErr ∧
      Decode (bytes "li+5ei7ee") = .ok (.list [.int 5]) ∧
      Decode (bytes "d1:ai+1e1:bi2ee") = .ok (.dict [(bytes "a", .int 1)]) := by
  refine ⟨rfl, by decide, ?_, rfl, rfl, rfl⟩
  rintro ⟨ds, _, hd, h | h⟩
  · rw [← h] at hd
    exact absurd hd (by decide)
  · have h' : ([43, 53] : Bytes) = c_minus :: ds := h
    injection h' with h1 _
    exact absurd h1 (by decide)

/-! ## Termination: every recursive call is on a shorter string -/

/-- A successful `Encode` returns at least two bytes. -/
theorem Encode_length_two {v : Value} {encoded : Bytes} (h : Encode v = (encoded, none)) :
    2 ≤ encoded.length := by
  have hsup : v.supported = true := by
    cases hs : v.supported with
    | true => rfl
    | false =>
      rw [(Encode_spec v).2 hs] at h
      simp at h
  cases v with
  | int n =>
    rw [Encode_int] at h
    simp only [Prod.mk.injEq, and_true] at h
    rw [← h]
    simp
  | str s =>
    obtain ⟨b, r, hb, _⟩ := formatNat_head s.length
    simp only [Encode, encodeString, Itoa_natCast, hb, Prod.mk.injEq, and_true] at h
    rw [← h]
    simp only [List.cons_append, List.length_cons, List.length_append]
    omega
  | list xs =>
    rw [Encode_list_ok (by simpa [Value.supported] using hsup)] at h
    simp only [Prod.mk.injEq, and_true] at h
    rw [← h]
    simp
  | dict es =>
    rw [Encode_dict_ok (by simpa [Value.supported] using hsup)] at h
    simp only [Prod.mk.injEq, and_true] at h
    rw [← h]
    simp
  | nilList =>
    simp only [Encode, Prod.mk.injEq, and_true] at h
    rw [← h]
    simp
  | nilDict =>
    simp only [Encode, Prod.mk.injEq, and_true] at h
    rw [← h]
    simp
  | other => simp [Value.supported] at hsup

/-- A successful `decodeItem` cuts at least two bytes. -/
theorem decodeItem_cuts_two {dec : Bytes → Res Value} {benc remaining : Bytes} {item : Value}
    (h : decodeItem dec benc = .ok (item, remaining)) : remaining.length + 2 ≤ benc.length := by
  unfold decodeItem at h
  split at h
  · split at h
    · rename_i henc
      split at h
      · exact Res.noConfusion h
      · rename_i hle
        have hpos := Encode_length_two henc
        simp only [Res.ok.injEq, Prod.mk.injEq] at h
        rw [← h.2, List.length_drop]
        omega
    · exact Res.noConfusion h
  · exact Res.noConfusion h
  · exact Res.noConfusion h
  · exact Res.noConfusion h

theorem decodeItem_congr {dec dec' : Bytes → Res Value} {benc : Bytes}
    (h : dec benc = dec' benc) : decodeItem dec benc = decodeItem dec' benc := by
  unfold decodeItem
  rw [h]

/-- The list loop calls `Decode` only on strings no longer than its input, and
any loop bound above the input length gives the same result. -/
theorem decodeListLoop_congr (dec dec' : Bytes → Res Value) :
    ∀ (lf lf' : Nat) (benc : Bytes) (acc : List Value), benc.length < lf → benc.length < lf' →
      (∀ b : Bytes, b.length ≤ benc.length → dec b = dec' b) →
      decodeListLoop dec lf benc acc = decodeListLoop dec' lf' benc acc := by
  intro lf
  induction lf with
  | zero => intro lf' benc _ h; omega
  | succ lf ih =>
    intro lf' benc acc hlf hlf' hdec
    cases lf' with
    | zero => omega
    | succ lf' =>
      unfold decodeListLoop
      cases benc with
      | nil => rfl
      | cons c r =>
        simp only
        by_cases hc : c = c_e
        · rw [if_pos hc, if_pos hc]
        · rw [if_neg hc, if_neg hc, ← decodeItem_congr (hdec _ (Nat.le_refl _))]
          cases hitem : decodeItem dec (c :: r) with
          | ok p =>
            obtain ⟨item, remaining⟩ := p
            have hlt := decodeItem_shorter hitem
            exact ih lf' remaining _ (by omega) (by omega) (fun b hb => hdec b (by omega))
          | err e => rfl
          | panicked p => rfl
          | outOfFuel => rfl

/-- The dictionary loop calls `Decode` only on strings no longer than its
input, and any loop bound above the input length gives the same result. -/
theorem decodeDictLoop_congr (dec dec' : Bytes → Res Value) :
    ∀ (lf lf' : Nat) (benc : Bytes) (acc : List (Bytes × Value)), benc.length < lf →
      benc.length < lf' → (∀ b : Bytes, b.length ≤ benc.length → dec b = dec' b) →
      decodeDictLoop dec lf benc acc = decodeDictLoop dec' lf' benc acc := by
  intro lf
  induction lf with
  | zero => intro lf' benc _ h; omega
  | succ lf ih =>
    intro lf' benc acc hlf hlf' hdec
    cases lf' with
    | zero => omega
    | succ lf' =>
      unfold decodeDictLoop
      cases benc with
      | nil => rfl
      | cons c r =>
        simp only
        by_cases hc : c = c_e
        · rw [if_pos hc, if_pos hc]
        · rw [if_neg hc, if_neg hc, ← decodeItem_congr (hdec _ (Nat.le_refl _))]
          cases hkey : decodeItem dec (c :: r) with
          | ok p =>
            obtain ⟨key, rem1⟩ := p
            have hlt := decodeItem_shorter hkey
            simp only
            rw [← decodeItem_congr (hdec rem1 (by omega))]
            cases hval : decodeItem dec rem1 with
            | ok q =>
              obtain ⟨value, rem2⟩ := q
              have hlt2 := decodeItem_shorter hval
              cases key with
              | str k =>
                exact ih lf' rem2 _ (by omega) (by omega) (fun b hb => hdec b (by omega))
              | int _ => rfl
              | list _ => rfl
              | dict _ => rfl
              | nilList => rfl
              | nilDict => rfl
              | other => rfl
            | err e => rfl
            | panicked p => rfl
            | outOfFuel => rfl
          | err e => rfl
          | panicked p => rfl
          | outOfFuel => rfl

/-- Any bound on the nesting above the input length gives the same result. -/
theorem DecodeF_fuel : ∀ (fuel fuel' : Nat) (benc : Bytes), benc.length < fuel →
    benc.length < fuel' → DecodeF fuel benc = DecodeF fuel' benc := by
  intro fuel
  induction fuel with
  | zero => intro fuel' benc h; omega
  | succ fuel ih =>
    intro fuel' benc h h'
    cases fuel' with
    | zero => omega
    | succ fuel' =>
      cases benc with
      | nil => rfl
      | cons c r =>
        have hsub : ∀ b : Bytes, b.length ≤ (List.drop 1 (c :: r)).length →
            DecodeF fuel b = DecodeF fuel' b := by
          intro b hb
          simp only [List.drop_succ_cons, List.drop_zero, List.length_cons] at hb h h'
          exact ih fuel' b (by omega) (by omega)
        have hl := decodeListLoop_congr (DecodeF fuel) (DecodeF fuel') ((c :: r).length + 1)
          ((c :: r).length + 1) (List.drop 1 (c :: r)) []
          (by simp only [List.drop_succ_cons, List.drop_zero, List.length_cons]; omega)
          (by simp only [List.drop_succ_cons, List.drop_zero, List.length_cons]; omega) hsub
        have hd := decodeDictLoop_congr (DecodeF fuel) (DecodeF fuel') ((c :: r).length + 1)
          ((c :: r).length + 1) (List.drop 1 (c :: r)) []
          (by simp only [List.drop_succ_cons, List.drop_zero, List.length_cons]; omega)
          (by simp only [List.drop_succ_cons, List.drop_zero, List.length_cons]; omega) hsub
        simp only [DecodeF, decodeList, decodeDict, hl, hd]

/-- C18. `Decode` terminates on every input: it never exhausts the bound on
nesting given by the input length, and every larger bound gives the same
result; every successful `decodeItem` returns a remaining input strictly
shorter than its input (at least two bytes shorter, as every encoding has at
least two bytes); and the loops of `decodeList` and `decodeDict` depend on the
recursive `Decode` only through its results on strings strictly shorter than
their input. -/
theorem decode_terminates :
    (∀ benc : Bytes, Decode benc ≠ .outOfFuel) ∧
    (∀ (benc : Bytes) (fuel : Nat), benc.length < fuel → DecodeF fuel benc = Decode benc) ∧
    (∀ (dec : Bytes → Res Value) (benc remaining : Bytes) (item : Value),
      decodeItem dec benc = .ok (item, remaining) →
        remaining.length < benc.length ∧ remaining.length + 2 ≤ benc.length) ∧
    (∀ (v : Value) (b : Bytes), Encode v = (b, none) → 2 ≤ b.length) ∧
    (∀ (dec dec' : Bytes → Res Value) (benc : Bytes),
      (∀ b : Bytes, b.length < benc.length → dec b = dec' b) →
        decodeList dec benc = decodeList dec' benc ∧
          decodeDict dec benc = decodeDict dec' benc) := by
  refine ⟨Decode_ne_outOfFuel, ?_, ?_, ?_, ?_⟩
  · intro benc fuel h
    exact DecodeF_fuel fuel _ benc h (Nat.lt_succ_self _)
  · intro dec benc remaining item h
    have := decodeItem_cuts_two h
    exact ⟨by omega, this⟩
  · intro v b h
    exact Encode_length_two h
  · intro dec dec' benc h
    unfold decodeList decodeDict
    cases benc with
    | nil =>
      exact ⟨rfl, rfl⟩
    | cons c r =>
      have hsub : ∀ b : Bytes, b.length ≤ (List.drop 1 (c :: r)).length → dec b = dec' b := by
        intro b hb
        simp only [List.drop_succ_cons, List.drop_zero] at hb
        exact h b (by simp only [List.length_cons]; omega)
      have hlen : (List.drop 1 (c :: r)).length < (c :: r).length + 1 := by
        simp only [List.drop_succ_cons, List.drop_zero, List.length_cons]
        omega
      exact ⟨decodeListLoop_congr dec dec' _ _ _ [] hlen hlen hsub,
        decodeDictLoop_congr dec dec' _ _ _ [] hlen hlen hsub⟩

/-! ## Number texts that are not canonical -/

/-- C15 (refuted at `i007e` and `01:a`). `Decode` accepts `i007e`, with the
integer 7, and `01:a`, with the string `a`; the encodings `i7e` and `1:a` of
these values are not prefixes of the inputs.  Inside a list `decodeItem` then
cuts fewer bytes than the item has: `li00ei5ee` decodes to the list of 0
alone, and `li007ee` fails with `missingColonErr`. -/
theorem decode_accepts_leading_zeros :
    Decode (bytes "i007e") = .ok (.int 7) ∧
      Encode (.int 7) = (bytes "i7e", none) ∧ ¬ (bytes "i7e" <+: bytes "i007e") ∧
      Decode (bytes "01:a") = .ok (.str (bytes "a")) ∧
      Encode (.str (bytes "a")) = (bytes "1:a", none) ∧ ¬ (bytes "1:a" <+: bytes "01:a") ∧
      Decode (bytes "li00ei5ee") = .ok (.list [.int 0]) ∧
      Decode (bytes "li007ee") = .err .missingColonErr :=
  ⟨rfl, rfl, by decide, rfl, rfl, by decide, rfl, rfl⟩

end Bencode
